import Mathlib

/-!
Verification of the hybrid retrieval and graph-augmented ranking engine of
the `obsidian-agentic-rag` repository.

The Python sources are shallowly embedded:

* `src/infrastructure/graph_navigator.py` — `GraphNavigator` (link graph,
  backlinks, BFS context expansion) is modelled over a `Vault`, a list of
  notes with their wikilink metadata;
* `src/infrastructure/vector_rag.py` — `VectorRAG.semantic_search`,
  `hybrid_search`, `rerank`, `add_documents` and `MockVectorRAG`; the
  external collaborators (ChromaDB similarity ranking, BM25 scores, the
  CrossEncoder) are oracle parameters;
* `src/application/rag_pipeline.py` — strategy dispatch, the hybrid /
  graph / full retrieval strategies and the token-budget truncation of
  `build_context`;
* `src/infrastructure/toon_converter.py` — `ContextOptimizer.estimate_tokens`.

Python floats are modelled as exact rationals, Python lists as `List`,
insertion-ordered dicts as association lists, and `list.sort(key=...,
reverse=True)` (a stable sort) as `List.insertionSort` with the
"greater-or-equal on keys" relation, which performs the same stable
descending sort.
-/

namespace ObsidianRAG

/-! ## Stable descending sort on a rational key

Python's `list.sort(key=f, reverse=True)` sorts descending by `f` and is
stable: elements with equal keys keep their original relative order.  A
stable descending sort is uniquely determined by (a) being sorted
descending and (b) agreeing with the input on every filter by key value,
which is how we reason about it below. -/

/-- The sort relation used everywhere: descending on the key `f`. -/
def keyGE (f : α → ℚ) (a b : α) : Prop := f b ≤ f a

instance (f : α → ℚ) : DecidableRel (keyGE f) := fun a b => by
  unfold keyGE; infer_instance

/-- Stable descending sort by the key `f`; the model of
`list.sort(key=..., reverse=True)`. -/
def sortOnDesc (f : α → ℚ) (l : List α) : List α :=
  l.insertionSort (keyGE f)

/-! ## Documents and the vault

`MCPDocument` (from `src/infrastructure/mcp_interface.py`) is embedded with
the fields the verified code paths read: `path`, `content` and the mutable
relevance `score` (a Python float, modelled as `ℚ`).  A `Note` is a vault
document together with the `wikilinks` entry of its extracted metadata; a
`Vault` is the note list served by the Obsidian client
(`list_notes` / `get_note`). -/

structure MCPDocument where
  path : String
  content : String
  score : ℚ
deriving DecidableEq

structure Note where
  path : String
  content : String
  wikilinks : List String
deriving DecidableEq

abbrev Vault := List Note

/-- `IObsidianMCP.get_note`: the note at `p`, if present. -/
def get_note (v : Vault) (p : String) : Option Note :=
  v.find? (fun n => n.path == p)

def vault_paths (v : Vault) : List String := v.map (·.path)

/-! ## GraphNavigator (`src/infrastructure/graph_navigator.py`) -/

/-- `GraphNavigator.get_linked_notes`: resolved outgoing wikilinks — each
wikilink plus `".md"`, kept only when that path exists in the vault. -/
def get_linked_notes (v : Vault) (p : String) : List String :=
  match get_note v p with
  | none => []
  | some n =>
    (n.wikilinks.map (fun l => l ++ ".md")).filter (fun lp => (get_note v lp).isSome)

/-- `GraphNavigator.get_backlinks`: the predecessors of `p` in the cached
wikilink graph built by `_build_graph` — i.e. those vault paths whose
resolved link list contains `p` — or `[]` when `p` is not a node. -/
def get_backlinks (v : Vault) (p : String) : List String :=
  if (get_note v p).isSome then
    (vault_paths v).filter (fun q => decide (p ∈ get_linked_notes v q))
  else []

/-- One BFS level of `GraphNavigator.expand_context`: process the frontier
paths left to right against the visited set, recording a document with
score `1/(d+1)` for each newly visited note and (when `expand` is true,
i.e. `current_depth < depth`) collecting its not-yet-visited resolved
links for the next level.  Returns (visited, docs, next frontier). -/
def visitFrontier (v : Vault) (expand : Bool) (d : Nat) :
    List String → List String → List MCPDocument →
    List String × List MCPDocument × List String
  | [], visited, docs => (visited, docs, [])
  | p :: rest, visited, docs =>
    if p ∈ visited then visitFrontier v expand d rest visited docs
    else
      let visited' := visited ++ [p]
      match get_note v p with
      | none => visitFrontier v expand d rest visited' docs
      | some n =>
        let docs' := docs ++ [⟨p, n.content, 1 / ((d : ℚ) + 1)⟩]
        let next :=
          if expand then (get_linked_notes v p).filter (fun l => decide (l ∉ visited'))
          else []
        let res := visitFrontier v expand d rest visited' docs'
        (res.1, res.2.1, next ++ res.2.2)

/-- The FIFO-queue loop of `expand_context`, level by level: entries at
`current_depth = d` precede entries at `d + 1` in the queue, so the loop is
exactly `k + 1` frontier passes; the last level (`current_depth = depth`)
records but does not expand. -/
def bfs_levels (v : Vault) :
    Nat → Nat → List String → List String → List MCPDocument →
    List String × List MCPDocument
  | 0, d, frontier, visited, docs =>
    let res := visitFrontier v false d frontier visited docs
    (res.1, res.2.1)
  | k + 1, d, frontier, visited, docs =>
    let res := visitFrontier v true d frontier visited docs
    bfs_levels v k (d + 1) res.2.2 res.1 res.2.1

/-- The BFS phase of `expand_context v p depth`: visited set and recorded
documents. -/
def bfs_result (v : Vault) (p : String) (depth : Nat) :
    List String × List MCPDocument :=
  bfs_levels v depth 0 [p] [] []

/-- `expanded_docs` just before the final sort: BFS documents, then the
not-yet-visited backlinks of the original `p`, each fetched and scored
`0.9`. -/
def discovery_list (v : Vault) (p : String) (depth : Nat) : List MCPDocument :=
  (bfs_result v p depth).2 ++
    ((get_backlinks v p).filter (fun b => decide (b ∉ (bfs_result v p depth).1))).filterMap
      (fun b => (get_note v b).map (fun n => (⟨b, n.content, 9/10⟩ : MCPDocument)))

/-- `GraphNavigator.expand_context`: the discovered documents, stable-sorted
by score descending. -/
def expand_context (v : Vault) (p : String) (depth : Nat) : List MCPDocument :=
  sortOnDesc (·.score) (discovery_list v p depth)

/-- A small concrete vault used to instantiate theorems with hypotheses:
`a → b`, `c → a`. -/
def vaultW : Vault :=
  [⟨"a.md", "A", ["b"]⟩, ⟨"b.md", "B", []⟩, ⟨"c.md", "C", ["a"]⟩]

/-! ## VectorRAG (`src/infrastructure/vector_rag.py`)

External collaborators are oracle parameters: `vecRank` is the full corpus
ranking that ChromaDB returns (similarity `1 - distance`, best first),
`bm25Scores` the score array `self._bm25.get_scores(...)` over the stored
documents, and the CrossEncoder an optional scoring function. -/

/-- The BM25-side store of `VectorRAG`: `(_doc_ids, _documents)`. -/
structure VectorStore where
  ids : List String
  contents : List String
deriving DecidableEq

/-- Python's `max(xs) if xs else 1.0`. -/
def listMax : List ℚ → ℚ
  | [] => 1
  | s :: ss => ss.foldl max s

/-- `np.argsort(scores)[::-1]`: indices of `scores` in descending score
order.  NumPy's default argsort leaves tie order unspecified; we take the
stable order, and every theorem that depends on the order assumes
pairwise-distinct scores, where all tie-breaks coincide. -/
def argsortDesc (scores : List ℚ) : List Nat :=
  sortOnDesc (fun i => scores.getD i 0) (List.range scores.length)

/-- `VectorRAG.semantic_search`: the first `k` entries of the vector
database ranking, scored `1 - distance`. -/
def semantic_search (vecRank : List MCPDocument) (k : Nat) : List MCPDocument :=
  vecRank.take k

/-- One `doc_scores` entry of `hybrid_search`: weighted-normalised vector
and BM25 contributions plus the document payload. -/
structure HEntry where
  vec : ℚ
  bm : ℚ
  doc : MCPDocument
deriving DecidableEq

/-- Insertion-ordered dict assignment `doc_scores[doc_id] = {...}`. -/
def dictSet (key : String) (val : HEntry) :
    List (String × HEntry) → List (String × HEntry)
  | [] => [(key, val)]
  | (k, e) :: rest =>
    if k = key then (k, val) :: rest else (k, e) :: dictSet key val rest

/-- The BM25 pass of `hybrid_search`: if the id is present, set its `bm25`
field; otherwise append a fresh BM25-only entry (`vector` contribution 0,
document payload built from the store, default score 0). -/
def bmUpsert (key : String) (val : ℚ) (doc : MCPDocument) :
    List (String × HEntry) → List (String × HEntry)
  | [] => [(key, ⟨0, val, doc⟩)]
  | (k, e) :: rest =>
    if k = key then (k, ⟨e.vec, val, e.doc⟩) :: rest
    else (k, e) :: bmUpsert key val doc rest

/-- `VectorRAG.hybrid_search` (the live path: BM25 available and built):
take `2k` vector candidates and the top `2k` BM25 indices, normalise each
source by its maximum observed score, weight by `vector_weight` /
`1 - vector_weight`, merge keyed by path in an insertion-ordered dict, sum
the contributions, stable-sort descending and truncate to `k`. -/
def hybrid_search (vecRank : List MCPDocument) (store : VectorStore)
    (bm25Scores : List ℚ) (k : Nat) (vector_weight : ℚ) : List MCPDocument :=
  let vectorDocs := semantic_search vecRank (k * 2)
  let bm25Indices := (argsortDesc bm25Scores).take (k * 2)
  let maxVector := listMax (vectorDocs.map (·.score))
  let maxBm25 := listMax bm25Scores
  let init := vectorDocs.foldl
    (fun acc d => dictSet d.path ⟨d.score / maxVector * vector_weight, 0, d⟩ acc) []
  let entries := bm25Indices.foldl
    (fun acc idx => bmUpsert (store.ids.getD idx "")
      (bm25Scores.getD idx 0 / maxBm25 * (1 - vector_weight))
      ⟨store.ids.getD idx "", store.contents.getD idx "", 0⟩ acc) init
  let ranked := entries.map
    (fun pe => (⟨pe.2.doc.path, pe.2.doc.content, pe.2.vec + pe.2.bm⟩ : MCPDocument))
  (sortOnDesc (·.score) ranked).take k

/-- The pure-keyword ranking underlying the BM25 candidate source: ids of
the top `k` BM25 indices. -/
def keyword_ranking (store : VectorStore) (bm25Scores : List ℚ) (k : Nat) :
    List String :=
  ((argsortDesc bm25Scores).take k).map (fun i => store.ids.getD i "")

/-- `VectorRAG.rerank`: the CrossEncoder oracle `ce` scores each
(query, content) pair; when it is absent (model missing / load error) the
code returns `candidates[:top_k]` unchanged.  Otherwise candidates are
stable-sorted by CrossEncoder score descending, truncated to `top_k`, and
their scores replaced. -/
def rerank (ce : Option (String → String → ℚ)) (query : String)
    (candidates : List MCPDocument) (top_k : Nat) : List MCPDocument :=
  match ce with
  | none => candidates.take top_k
  | some f =>
    let reranked :=
      sortOnDesc (fun pr => pr.2) (candidates.map (fun d => (d, f query d.content)))
    (reranked.take top_k).map (fun pr => ⟨pr.1.path, pr.1.content, pr.2⟩)

/-- `VectorRAG.add_documents`, BM25 side: a non-empty batch wholesale
replaces `(_doc_ids, _documents)`. -/
def add_documents (store : VectorStore) (docs : List MCPDocument) : VectorStore :=
  if docs.isEmpty then store
  else ⟨docs.map (·.path), docs.map (·.content)⟩

/-- `MockVectorRAG.add_documents`: `self._documents.extend(documents)`. -/
def mock_add_documents (store : List MCPDocument) (docs : List MCPDocument) :
    List MCPDocument :=
  store ++ docs

/-! ## RAGPipeline (`src/application/rag_pipeline.py`) -/

/-- `RAGConfig` with the source defaults. -/
structure RAGConfig where
  top_k : Nat := 5
  graph_depth : Nat := 2
  use_hybrid_search : Bool := true
  vector_weight : ℚ := 3/5
  use_toon : Bool := true
  use_rt_scheduling : Bool := true
  rerank : Bool := true
  max_context_tokens : Nat := 4000
  include_metadata : Bool := true
deriving DecidableEq

/-- `RAGPipeline._vector_retrieval`. -/
def vector_retrieval (vecRank : List MCPDocument) (cfg : RAGConfig) :
    List MCPDocument :=
  semantic_search vecRank cfg.top_k

/-- `RAGPipeline._keyword_retrieval`: `obsidian.search_vault` is an oracle;
the result is truncated to `top_k`. -/
def keyword_retrieval (searchVault : String → List MCPDocument) (cfg : RAGConfig)
    (query : String) : List MCPDocument :=
  (searchVault query).take cfg.top_k

/-- `RAGPipeline._hybrid_retrieval`: run `hybrid_search` with `top_k`, then,
if reranking is enabled and more than 3 results came back, rerank them with
`top_k = min(3, len(results))`. -/
def hybrid_retrieval (vecRank : List MCPDocument) (store : VectorStore)
    (bm25Scores : List ℚ) (ce : Option (String → String → ℚ)) (cfg : RAGConfig)
    (query : String) : List MCPDocument :=
  let results := hybrid_search vecRank store bm25Scores cfg.top_k cfg.vector_weight
  if cfg.rerank && decide (3 < results.length) then
    rerank ce query results (min 3 results.length)
  else results

/-- The `seen_paths` deduplication loop: keep the first document for each
path, with an initial seen-set. -/
def dedupByPathFrom (seen : List String) : List MCPDocument → List MCPDocument
  | [] => []
  | d :: ds =>
    if d.path ∈ seen then dedupByPathFrom seen ds
    else d :: dedupByPathFrom (d.path :: seen) ds

/-- `RAGPipeline._graph_retrieval`: expand the top 3 hybrid seeds through
the graph, deduplicate by path across all expansions (first occurrence
wins), sort by score descending and truncate to `top_k`.  The original
seeds are not added back. -/
def graph_retrieval (v : Vault) (vecRank : List MCPDocument) (store : VectorStore)
    (bm25Scores : List ℚ) (ce : Option (String → String → ℚ)) (cfg : RAGConfig)
    (query : String) : List MCPDocument :=
  let initial := hybrid_retrieval vecRank store bm25Scores ce cfg query
  if initial.isEmpty then []
  else
    let expanded := dedupByPathFrom []
      ((initial.take 3).bind (fun d => expand_context v d.path cfg.graph_depth))
    (sortOnDesc (·.score) expanded).take cfg.top_k

/-- `RAGPipeline._full_retrieval`: hybrid results plus depth-2 expansions
of the top 2, deduplicated against the hybrid paths, sorted, truncated. -/
def full_retrieval (v : Vault) (vecRank : List MCPDocument) (store : VectorStore)
    (bm25Scores : List ℚ) (ce : Option (String → String → ℚ)) (cfg : RAGConfig)
    (query : String) : List MCPDocument :=
  let hybridDocs := hybrid_retrieval vecRank store bm25Scores ce cfg query
  let graphDocs := dedupByPathFrom (hybridDocs.map (·.path))
    ((hybridDocs.take 2).bind (fun d => expand_context v d.path 2))
  (sortOnDesc (·.score) (hybridDocs ++ graphDocs)).take cfg.top_k

/-- `RAGPipeline.retrieve`: string-keyed strategy dispatch; an unknown name
raises `ValueError(f"Unknown strategy: {strategy}")`, modelled as
`Except.error`. -/
def retrieve (v : Vault) (vecRank : List MCPDocument) (store : VectorStore)
    (bm25Scores : List ℚ) (searchVault : String → List MCPDocument)
    (ce : Option (String → String → ℚ)) (cfg : RAGConfig) (query : String)
    (strategy : String) : Except String (List MCPDocument) :=
  if strategy = "vector" then .ok (vector_retrieval vecRank cfg)
  else if strategy = "keyword" then .ok (keyword_retrieval searchVault cfg query)
  else if strategy = "hybrid" then
    .ok (hybrid_retrieval vecRank store bm25Scores ce cfg query)
  else if strategy = "graph" then
    .ok (graph_retrieval v vecRank store bm25Scores ce cfg query)
  else if strategy = "full" then
    .ok (full_retrieval v vecRank store bm25Scores ce cfg query)
  else .error ("Unknown strategy: " ++ strategy)

/-! ## Context assembly: token-budget truncation
(`RAGPipeline.build_context`, lines 239–248, and
`ContextOptimizer.estimate_tokens`). -/

/-- `"\n... [truncated]"`, the marker appended on truncation. -/
def truncMarker : List Char := "\n... [truncated]".data

/-- `ContextOptimizer.estimate_tokens`: `len(text) // 4`. -/
def estimate_tokens (text : List Char) : Nat := text.length / 4

/-- The token-limit step of `build_context`: if the estimate exceeds the
budget, scale the length by `budget / estimate`, hard-truncate to that many
characters, and append the truncation marker. -/
def enforce_token_limit (max_context_tokens : Nat) (context : List Char) :
    List Char :=
  let estimated := estimate_tokens context
  if max_context_tokens < estimated then
    context.take (context.length * max_context_tokens / estimated) ++ truncMarker
  else context

/-- A six-document corpus for exercising the hybrid-plus-rerank path
(paths distinct, vector scores strictly descending, BM25 disabled). -/
def vr3 : List MCPDocument :=
  [⟨"a.md", "A", 6⟩, ⟨"b.md", "B", 5⟩, ⟨"c.md", "C", 4⟩,
   ⟨"d.md", "D", 3⟩, ⟨"e.md", "E", 2⟩, ⟨"f.md", "F", 1⟩]

/-- The default configuration with `top_k = 5` and a pure-vector weight. -/
def cfg3 : RAGConfig := { top_k := 5, vector_weight := 1 }

/-- The graph strategy as the claim words it (for comparison with the
source-derived `graph_retrieval`): union the top-3 seeds' expansions with
ALL the original seed candidates, deduplicate by path with the first
occurrence winning, sort by score descending, truncate to `top_k`. -/
def graph_retrieval_claimed (v : Vault) (vecRank : List MCPDocument)
    (store : VectorStore) (bm25Scores : List ℚ)
    (ce : Option (String → String → ℚ)) (cfg : RAGConfig) (query : String) :
    List MCPDocument :=
  let initial := hybrid_retrieval vecRank store bm25Scores ce cfg query
  let union :=
    ((initial.take 3).bind (fun d => expand_context v d.path cfg.graph_depth))
      ++ initial
  (sortOnDesc (fun d => d.score) (dedupByPathFrom [] union)).take cfg.top_k

/-- A four-note vault with no wikilinks, and matching vector candidates. -/
def vault5 : Vault :=
  [⟨"a.md", "A", []⟩, ⟨"b.md", "B", []⟩, ⟨"c.md", "C", []⟩, ⟨"d.md", "D", []⟩]

/-- Vector candidates over `vault5`, scores strictly descending. -/
def vr5 : List MCPDocument :=
  [⟨"a.md", "A", 4⟩, ⟨"b.md", "B", 3⟩, ⟨"c.md", "C", 2⟩, ⟨"d.md", "D", 1⟩]

/-- Defaults with reranking off and a pure-vector weight. -/
def cfg5 : RAGConfig := { rerank := false, vector_weight := 1 }

/-! ## MockVectorRAG (`src/infrastructure/vector_rag.py`, lines 304-336) -/

/-- Does `pat` match at the head of the text? -/
def leadMatch : List Char → List Char → Bool
  | [], _ => true
  | _ :: _, [] => false
  | a :: as, b :: bs => a == b && leadMatch as bs

/-- Python `pat in s` on character lists. -/
def isSubstr : List Char → List Char → Bool
  | pat, [] => pat.isEmpty
  | pat, c :: t => leadMatch pat (c :: t) || isSubstr pat t

/-- Non-overlapping occurrence count (Python `str.count` for a non-empty
pattern): on a match, scanning resumes after the matched block. -/
def occCount (pat : List Char) : List Char → Nat
  | [] => 0
  | c :: rest =>
    if leadMatch pat (c :: rest) then
      1 + occCount pat (rest.drop (pat.length - 1))
    else occCount pat rest
termination_by s => s.length
decreasing_by
  all_goals simp only [List.length_drop, List.length_cons]
  all_goals omega

/-- Python `s.count(pat)`: an empty pattern counts `len(s) + 1`. -/
def pyCount (pat s : List Char) : Nat :=
  if pat.isEmpty then s.length + 1 else occCount pat s

/-- Word counter behind `len(s.split())`: runs of non-whitespace. -/
def wcGo : List Char → Bool → Nat
  | [], _ => 0
  | c :: rest, inw =>
    if c.isWhitespace then wcGo rest false
    else (if inw then 0 else 1) + wcGo rest true

/-- Python `len(s.split())`. -/
def pyWords (s : List Char) : Nat := wcGo s false

/-- Python `s.lower()`, character-wise. -/
def pyLower (s : String) : List Char := s.data.map Char.toLower

/-- The match test of `MockVectorRAG.semantic_search`:
`query.lower() in doc.content.lower()`. -/
def mock_matches (query : String) (d : MCPDocument) : Bool :=
  isSubstr (pyLower query) (pyLower d.content)

/-- The score written into a matching document:
`content.lower().count(query.lower()) / len(content.split())` (Python
raises on a zero word count; division by zero is 0 here). -/
def mock_score (query : String) (d : MCPDocument) : ℚ :=
  (pyCount (pyLower query) (pyLower d.content) : ℚ) /
    (pyWords d.content.data : ℚ)

/-- The in-place `doc.score = ...` mutation applied to one stored
document during a mock search. -/
def mock_update (query : String) (d : MCPDocument) : MCPDocument :=
  if mock_matches query d then ⟨d.path, d.content, mock_score query d⟩ else d

/-- `MockVectorRAG.semantic_search`: matching stored documents get their
scores recomputed in place, the matches are returned sorted by score
descending and truncated to `k`; the store (first mutated, then read) is
returned alongside. -/
def mock_semantic_search (store : List MCPDocument) (query : String)
    (k : Nat) : List MCPDocument × List MCPDocument :=
  let updated := store.map (mock_update query)
  ((sortOnDesc (fun d => d.score)
      (updated.filter (mock_matches query))).take k,
   updated)

/-! ## Theorems -/

theorem sortOnDesc_sorted (f : α → ℚ) (l : List α) :
    (sortOnDesc f l).Sorted (keyGE f) := by
  haveI : IsTotal α (keyGE f) := ⟨fun a b => le_total (f b) (f a)⟩
  haveI : IsTrans α (keyGE f) := ⟨fun _ _ _ h1 h2 => le_trans h2 h1⟩
  exact List.sorted_insertionSort _ l

theorem sortOnDesc_perm (f : α → ℚ) (l : List α) : (sortOnDesc f l).Perm l :=
  List.perm_insertionSort _ l

theorem sortOnDesc_length (f : α → ℚ) (l : List α) :
    (sortOnDesc f l).length = l.length :=
  List.length_insertionSort _ l

theorem mem_sortOnDesc (f : α → ℚ) {l : List α} {x : α} :
    x ∈ sortOnDesc f l ↔ x ∈ l :=
  List.mem_insertionSort _

theorem sortOnDesc_eq_self (f : α → ℚ) {l : List α} (h : l.Sorted (keyGE f)) :
    sortOnDesc f l = l :=
  List.Sorted.insertionSort_eq h

/-- Filtering by an exact key value commutes with one ordered insertion. -/
theorem filter_orderedInsert (f : α → ℚ) (s : ℚ) (x : α) (l : List α) :
    (l.orderedInsert (keyGE f) x).filter (fun a => f a == s) =
      if f x == s then x :: l.filter (fun a => f a == s)
      else l.filter (fun a => f a == s) := by
  induction l with
  | nil => simp [List.orderedInsert, List.filter_cons]
  | cons y t ih =>
    by_cases hxy : keyGE f x y
    · simp [List.orderedInsert, if_pos hxy, List.filter_cons]
    · simp only [List.orderedInsert, if_neg hxy, List.filter_cons]
      by_cases hy : f y == s
      · by_cases hx : f x == s
        · exfalso
          have h1 : f y = s := by simpa using hy
          have h2 : f x = s := by simpa using hx
          exact hxy (by unfold keyGE; rw [h1, h2])
        · simp [hy, ih, hx, List.filter_cons]
      · simp [hy, ih, List.filter_cons]

/-- Stability of the modelled sort: filtering by an exact key value gives
the same sublist before and after sorting. -/
theorem sortOnDesc_filter (f : α → ℚ) (s : ℚ) (l : List α) :
    (sortOnDesc f l).filter (fun a => f a == s) =
      l.filter (fun a => f a == s) := by
  induction l with
  | nil => rfl
  | cons x t ih =>
    simp only [sortOnDesc, List.insertionSort] at *
    rw [filter_orderedInsert]
    by_cases hx : f x == s <;> simp [hx, ih, List.filter_cons]

/-- Two lists that are both sorted descending and agree on every key-value
filter are equal.  This pins down the output of a stable sort. -/
theorem sorted_filter_unique (f : α → ℚ) :
    ∀ {l₁ l₂ : List α}, l₁.Sorted (keyGE f) → l₂.Sorted (keyGE f) →
      (∀ s : ℚ, l₁.filter (fun a => f a == s) = l₂.filter (fun a => f a == s)) →
      l₁ = l₂ := by
  intro l₁
  induction l₁ with
  | nil =>
    intro l₂ _ _ hf
    cases l₂ with
    | nil => rfl
    | cons b t₂ =>
      exfalso
      have := hf (f b)
      simp [List.filter_cons] at this
  | cons a t₁ ih =>
    intro l₂ h₁ h₂ hf
    cases l₂ with
    | nil =>
      exfalso
      have := hf (f a)
      simp [List.filter_cons] at this
    | cons b t₂ =>
      have hab : f a = f b := by
        rcases lt_trichotomy (f a) (f b) with h | h | h
        · exfalso
          have hfb := hf (f b)
          have hLe : (a :: t₁).filter (fun x => f x == f b) = [] := by
            apply List.filter_eq_nil_iff.mpr
            intro x hx
            rcases List.mem_cons.mp hx with rfl | hx'
            · simpa using ne_of_lt h
            · have hle : f x ≤ f a := List.rel_of_sorted_cons h₁ x hx'
              simpa using ne_of_lt (lt_of_le_of_lt hle h)
          rw [hLe] at hfb
          simp [List.filter_cons] at hfb
        · exact h
        · exfalso
          have hfa := hf (f a)
          have hRe : (b :: t₂).filter (fun x => f x == f a) = [] := by
            apply List.filter_eq_nil_iff.mpr
            intro x hx
            rcases List.mem_cons.mp hx with rfl | hx'
            · simpa using ne_of_lt h
            · have hle : f x ≤ f b := List.rel_of_sorted_cons h₂ x hx'
              simpa using ne_of_lt (lt_of_le_of_lt hle h)
          rw [hRe] at hfa
          simp [List.filter_cons] at hfa
      have hkey := hf (f a)
      rw [List.filter_cons, List.filter_cons, if_pos (by simp),
        if_pos (by simp [hab.symm])] at hkey
      rw [List.cons.injEq] at hkey
      obtain ⟨hab', htl⟩ := hkey
      subst hab'
      have ht : ∀ s : ℚ, t₁.filter (fun x => f x == s) = t₂.filter (fun x => f x == s) := by
        intro s
        by_cases hs : f a = s
        · subst hs; exact htl
        · have hfs := hf s
          rw [List.filter_cons, List.filter_cons, if_neg (by simpa using hs),
            if_neg (by simpa using hs)] at hfs
          exact hfs
      exact congrArg (a :: ·) (ih h₁.of_cons h₂.of_cons ht)

/-- Workhorse: to compute `sortOnDesc f l` it is enough to exhibit a sorted
list with the same key-value filters. -/
theorem sortOnDesc_eq_of (f : α → ℚ) {l m : List α} (hm : m.Sorted (keyGE f))
    (hf : ∀ s : ℚ, m.filter (fun a => f a == s) = l.filter (fun a => f a == s)) :
    sortOnDesc f l = m :=
  sorted_filter_unique f (sortOnDesc_sorted f l) hm
    (fun s => (sortOnDesc_filter f s l).trans (hf s).symm)

theorem get_note_isSome_iff (v : Vault) (p : String) :
    (get_note v p).isSome ↔ p ∈ vault_paths v := by
  unfold get_note vault_paths
  rw [List.find?_isSome]
  constructor
  · rintro ⟨n, hn, hp⟩
    exact List.mem_map.mpr ⟨n, hn, by simpa using hp⟩
  · intro hmem
    obtain ⟨n, hn, hp⟩ := List.mem_map.mp hmem
    exact ⟨n, hn, by simp [hp]⟩

theorem get_note_path {v : Vault} {p : String} {n : Note}
    (h : get_note v p = some n) : n.path = p := by
  have := List.find?_some h
  simpa using this

theorem mem_get_linked_notes_isSome {v : Vault} {x y : String}
    (h : x ∈ get_linked_notes v y) :
    (get_note v x).isSome ∧ (get_note v y).isSome := by
  unfold get_linked_notes at h
  cases hy : get_note v y with
  | none => rw [hy] at h; simp at h
  | some n =>
    rw [hy] at h
    exact ⟨(List.mem_filter.mp h).2, by simp [hy]⟩

theorem mem_get_backlinks_isSome {v : Vault} {p b : String}
    (h : b ∈ get_backlinks v p) : (get_note v b).isSome := by
  unfold get_backlinks at h
  split at h
  · exact (get_note_isSome_iff v b).mpr (List.mem_filter.mp h).1
  · simp at h

/-! ### BFS lemmas -/

/-- Each frontier pass only appends documents, and every appended document
was created at this level: score `1/(d+1)`, content fetched from the
vault. -/
theorem visitFrontier_docs (v : Vault) (e : Bool) (d : Nat) :
    ∀ (fr visited : List String) (docs : List MCPDocument),
      ∃ new, (visitFrontier v e d fr visited docs).2.1 = docs ++ new ∧
        ∀ x ∈ new, x.score = 1 / ((d : ℚ) + 1) ∧
          ∃ n, get_note v x.path = some n ∧ x.content = n.content := by
  intro fr
  induction fr with
  | nil =>
    intro visited docs
    exact ⟨[], by simp [visitFrontier], by simp⟩
  | cons p rest ih =>
    intro visited docs
    by_cases hp : p ∈ visited
    · simpa [visitFrontier, hp] using ih visited docs
    · cases hn : get_note v p with
      | none => simpa [visitFrontier, hp, hn] using ih (visited ++ [p]) docs
      | some n =>
        obtain ⟨new, hnew, hprop⟩ :=
          ih (visited ++ [p]) (docs ++ [⟨p, n.content, 1 / ((d : ℚ) + 1)⟩])
        refine ⟨⟨p, n.content, 1 / ((d : ℚ) + 1)⟩ :: new, ?_, ?_⟩
        · simp only [visitFrontier, if_neg hp, hn]
          rw [hnew]
          simp
        · intro x hx
          rcases List.mem_cons.mp hx with rfl | hx'
          · exact ⟨rfl, n, hn, rfl⟩
          · exact hprop x hx'

theorem visitFrontier_docs_mono (v : Vault) (e : Bool) (d : Nat)
    (fr visited : List String) (docs : List MCPDocument) {x : MCPDocument}
    (hx : x ∈ docs) : x ∈ (visitFrontier v e d fr visited docs).2.1 := by
  obtain ⟨new, hnew, -⟩ := visitFrontier_docs v e d fr visited docs
  rw [hnew]
  exact List.mem_append_left _ hx

/-- Every not-yet-visited frontier note is recorded at this level with
score `1/(d+1)`. -/
theorem visitFrontier_complete (v : Vault) (e : Bool) (d : Nat) :
    ∀ (fr visited : List String) (docs : List MCPDocument) {p : String} {n : Note},
      p ∈ fr → p ∉ visited → get_note v p = some n →
      (⟨p, n.content, 1 / ((d : ℚ) + 1)⟩ : MCPDocument) ∈
        (visitFrontier v e d fr visited docs).2.1 := by
  intro fr
  induction fr with
  | nil =>
    intro _ _ p n h
    simp at h
  | cons q rest ih =>
    intro visited docs p n hmem hnv hn
    by_cases hpq : p = q
    · subst hpq
      simp only [visitFrontier, if_neg hnv, hn]
      exact visitFrontier_docs_mono v e d rest _ _ (List.mem_append_right _ (by simp))
    · have hrest : p ∈ rest := by
        rcases List.mem_cons.mp hmem with h | h
        · exact absurd h hpq
        · exact h
      by_cases hq : q ∈ visited
      · simp only [visitFrontier, if_pos hq]
        exact ih visited docs hrest hnv hn
      · have hnv' : p ∉ visited ++ [q] := by
          simp only [List.mem_append, List.mem_singleton]
          rintro (h | h)
          · exact hnv h
          · exact hpq h
        cases hqn : get_note v q with
        | none =>
          simp only [visitFrontier, if_neg hq, hqn]
          exact ih (visited ++ [q]) docs hrest hnv' hn
        | some m =>
          simp only [visitFrontier, if_neg hq, hqn]
          exact ih (visited ++ [q]) _ hrest hnv' hn

theorem bfs_levels_docs_mono (v : Vault) :
    ∀ (k d : Nat) (fr visited : List String) (docs : List MCPDocument)
      {x : MCPDocument}, x ∈ docs → x ∈ (bfs_levels v k d fr visited docs).2 := by
  intro k
  induction k with
  | zero =>
    intro d fr visited docs x hx
    simp only [bfs_levels]
    exact visitFrontier_docs_mono v false d fr visited docs hx
  | succ k ih =>
    intro d fr visited docs x hx
    simp only [bfs_levels]
    exact ih _ _ _ _ (visitFrontier_docs_mono v true d fr visited docs hx)

/-- Every document recorded by the levelled BFS starting at level `d` with
`k` expanding passes left carries a score `1/(j+1)` for a level
`d ≤ j ≤ d + k`, with its content fetched from the vault. -/
theorem bfs_levels_mem (v : Vault) :
    ∀ (k d : Nat) (fr visited : List String) (docs : List MCPDocument)
      {x : MCPDocument}, x ∈ (bfs_levels v k d fr visited docs).2 →
      x ∈ docs ∨ ∃ j, d ≤ j ∧ j ≤ d + k ∧ x.score = 1 / ((j : ℚ) + 1) ∧
        ∃ n, get_note v x.path = some n ∧ x.content = n.content := by
  intro k
  induction k with
  | zero =>
    intro d fr visited docs x hx
    simp only [bfs_levels] at hx
    obtain ⟨new, hnew, hprop⟩ := visitFrontier_docs v false d fr visited docs
    rw [hnew] at hx
    rcases List.mem_append.mp hx with h | h
    · exact Or.inl h
    · obtain ⟨hs, n, hn, hc⟩ := hprop x h
      exact Or.inr ⟨d, le_refl d, by omega, hs, n, hn, hc⟩
  | succ k ih =>
    intro d fr visited docs x hx
    simp only [bfs_levels] at hx
    rcases ih (d + 1) _ _ _ hx with h | ⟨j, hj1, hj2, hs, n, hn, hc⟩
    · obtain ⟨new, hnew, hprop⟩ := visitFrontier_docs v true d fr visited docs
      rw [hnew] at h
      rcases List.mem_append.mp h with h' | h'
      · exact Or.inl h'
      · obtain ⟨hs, n, hn, hc⟩ := hprop x h'
        exact Or.inr ⟨d, le_refl d, by omega, hs, n, hn, hc⟩
    · exact Or.inr ⟨j, by omega, by omega, hs, n, hn, hc⟩

theorem bfs_levels_complete (v : Vault) :
    ∀ (k d : Nat) (fr visited : List String) (docs : List MCPDocument)
      {p : String} {n : Note}, p ∈ fr → p ∉ visited → get_note v p = some n →
      (⟨p, n.content, 1 / ((d : ℚ) + 1)⟩ : MCPDocument) ∈
        (bfs_levels v k d fr visited docs).2 := by
  intro k
  induction k with
  | zero =>
    intro d fr visited docs p n hmem hnv hn
    simp only [bfs_levels]
    exact visitFrontier_complete v false d fr visited docs hmem hnv hn
  | succ k ih =>
    intro d fr visited docs p n hmem hnv hn
    simp only [bfs_levels]
    exact bfs_levels_docs_mono v k (d + 1) _ _ _
      (visitFrontier_complete v true d fr visited docs hmem hnv hn)

/-- Evaluation of the root pass: processing the singleton frontier `[p]`
for an existing note visits `p`, records it with score `1/(0+1)` and (when
expanding) queues its resolved links. -/
theorem visitFrontier_root (v : Vault) (e : Bool) {p : String} {n : Note}
    (hn : get_note v p = some n) :
    visitFrontier v e 0 [p] [] [] =
      ([p], [⟨p, n.content, 1 / ((0 : ℚ) + 1)⟩],
        if e then (get_linked_notes v p).filter (fun l => decide (l ∉ [p])) else []) := by
  simp [visitFrontier, hn]

/-- C7: For every vault graph and every node `x`, the set returned by
`backlinks(x)` equals the set of nodes `y` such that `x` is a member of
`outgoingLinks(y)`. -/
theorem get_backlinks_spec (v : Vault) (x y : String) :
    y ∈ get_backlinks v x ↔ x ∈ get_linked_notes v y := by
  unfold get_backlinks
  by_cases h : (get_note v x).isSome
  · rw [if_pos h, List.mem_filter]
    constructor
    · rintro ⟨_, hx⟩
      exact of_decide_eq_true hx
    · intro hx
      refine ⟨?_, decide_eq_true hx⟩
      exact (get_note_isSome_iff v y).mp (mem_get_linked_notes_isSome hx).2
  · rw [if_neg h]
    simp only [List.not_mem_nil, false_iff]
    intro hx
    exact h (mem_get_linked_notes_isSome hx).1

/-- C2: `expand_context` is a breadth-first traversal in which every
recorded document carries score `1/(distance+1)` for its BFS level
`distance ≤ depth` (so nothing at distance `depth` is expanded further),
the root — when it exists — is recorded with score `1.0` and its direct
neighbours with score `0.5`, the not-yet-visited backlinks of the original
path are appended with score exactly `0.9`, and the returned list is
sorted by score descending with ties preserving discovery order. -/
theorem expand_context_spec (v : Vault) (p : String) (depth : Nat) :
    (∀ x ∈ expand_context v p depth,
        (∃ j ≤ depth, x.score = 1 / ((j : ℚ) + 1)) ∨
        (x.score = 9/10 ∧ x.path ∈ get_backlinks v p ∧
          x.path ∉ (bfs_result v p depth).1)) ∧
    (∀ n, get_note v p = some n →
        (⟨p, n.content, 1⟩ : MCPDocument) ∈ expand_context v p depth) ∧
    (1 ≤ depth → ∀ q ∈ get_linked_notes v p, q ≠ p →
        ∃ n, get_note v q = some n ∧
          (⟨q, n.content, 1/2⟩ : MCPDocument) ∈ expand_context v p depth) ∧
    (∀ b ∈ get_backlinks v p, b ∉ (bfs_result v p depth).1 →
        ∃ n, get_note v b = some n ∧
          (⟨b, n.content, 9/10⟩ : MCPDocument) ∈ expand_context v p depth) ∧
    (expand_context v p depth).Sorted (fun a b => b.score ≤ a.score) ∧
    (∀ s : ℚ, (expand_context v p depth).filter (fun x => x.score == s) =
        (discovery_list v p depth).filter (fun x => x.score == s)) := by
  refine ⟨?_, ?_, ?_, ?_, ?_, ?_⟩
  · intro x hx
    have hx' : x ∈ discovery_list v p depth := (mem_sortOnDesc _).mp hx
    rcases List.mem_append.mp hx' with h | h
    · rcases bfs_levels_mem v depth 0 [p] [] [] h with h0 | ⟨j, _, hj2, hs, -⟩
      · simp at h0
      · exact Or.inl ⟨j, by omega, hs⟩
    · obtain ⟨b, hb, hmap⟩ := List.mem_filterMap.mp h
      obtain ⟨hbback, hbnv⟩ := List.mem_filter.mp hb
      cases hbn : get_note v b with
      | none => rw [hbn] at hmap; simp at hmap
      | some n =>
        rw [hbn] at hmap
        simp only [Option.map_some'] at hmap
        obtain rfl := Option.some_inj.mp hmap
        exact Or.inr ⟨rfl, hbback, of_decide_eq_true hbnv⟩
  · intro n hn
    have hmem : (⟨p, n.content, 1 / (((0 : Nat) : ℚ) + 1)⟩ : MCPDocument) ∈
        (bfs_result v p depth).2 :=
      bfs_levels_complete v depth 0 [p] [] [] (by simp) (by simp) hn
    have h1 : (1 : ℚ) / (((0 : Nat) : ℚ) + 1) = 1 := by norm_num
    rw [h1] at hmem
    exact (mem_sortOnDesc _).mpr (List.mem_append_left _ hmem)
  · intro hdep q hq hqp
    obtain ⟨hqs, hps⟩ := mem_get_linked_notes_isSome hq
    obtain ⟨n, hn⟩ := Option.isSome_iff_exists.mp hps
    obtain ⟨m, hm⟩ := Option.isSome_iff_exists.mp hqs
    refine ⟨m, hm, ?_⟩
    obtain ⟨k, rfl⟩ : ∃ k, depth = k + 1 := ⟨depth - 1, by omega⟩
    have hres : (bfs_result v p (k + 1)).2 =
        (bfs_levels v k 1 ((get_linked_notes v p).filter (fun l => decide (l ∉ [p])))
          [p] [⟨p, n.content, 1 / (((0 : Nat) : ℚ) + 1)⟩]).2 := by
      simp only [bfs_result, bfs_levels, visitFrontier_root v true hn, if_true]
      norm_num
    have hqf : q ∈ (get_linked_notes v p).filter (fun l => decide (l ∉ [p])) :=
      List.mem_filter.mpr ⟨hq, by simp [hqp]⟩
    have hmem : (⟨q, m.content, 1 / (((1 : Nat) : ℚ) + 1)⟩ : MCPDocument) ∈
        (bfs_result v p (k + 1)).2 := by
      rw [hres]
      exact bfs_levels_complete v k 1 _ [p] _ hqf (by simp [hqp]) hm
    have h2 : (1 : ℚ) / (((1 : Nat) : ℚ) + 1) = 1/2 := by norm_num
    rw [h2] at hmem
    exact (mem_sortOnDesc _).mpr (List.mem_append_left _ hmem)
  · intro b hb hbv
    obtain ⟨n, hn⟩ := Option.isSome_iff_exists.mp (mem_get_backlinks_isSome hb)
    refine ⟨n, hn, ?_⟩
    apply (mem_sortOnDesc _).mpr
    apply List.mem_append_right
    apply List.mem_filterMap.mpr
    exact ⟨b, List.mem_filter.mpr ⟨hb, by simpa using hbv⟩, by simp [hn]⟩
  · exact sortOnDesc_sorted _ _
  · intro s
    exact sortOnDesc_filter _ s _

/-- Witness for C2 on the concrete vault `vaultW`: the root `a.md` is
recorded with score `1.0` and its neighbour `b.md` with score `0.5`. -/
theorem expand_context_spec_witness :
    (⟨"a.md", "A", 1⟩ : MCPDocument) ∈ expand_context vaultW "a.md" 1 ∧
    (⟨"b.md", "B", 1/2⟩ : MCPDocument) ∈ expand_context vaultW "a.md" 1 := by
  have h := expand_context_spec vaultW "a.md" 1
  constructor
  · exact h.2.1 ⟨"a.md", "A", ["b"]⟩ (by decide)
  · obtain ⟨n, hn, hm⟩ := h.2.2.1 (le_refl 1) "b.md" (by decide) (by decide)
    have hval : get_note vaultW "b.md" = some ⟨"b.md", "B", []⟩ := by decide
    rw [hval] at hn
    injection hn with hn'
    rw [← hn'] at hm
    exact hm

/-- C1 counterexample: similarity scores are `1 - distance`, and cosine
distances above 1 make them negative; normalising by a negative maximum
flips the vector ranking.  With corpus scores `-1/4, -1/2` (distances
`1.25, 1.5`) and `vector_weight = 1.0`, `hybrid_search` returns
`[b.md, a.md]` while pure vector search returns `[a.md, b.md]`. -/
theorem hybrid_weight_one_counterexample :
    (hybrid_search [⟨"a.md", "A", -(1/4)⟩, ⟨"b.md", "B", -(1/2)⟩]
        ⟨["a.md", "b.md"], ["A", "B"]⟩ [1, 2] 2 1).map (·.path) ≠
      (semantic_search [⟨"a.md", "A", -(1/4)⟩, ⟨"b.md", "B", -(1/2)⟩] 2).map
        (·.path) := by
  have h1 : (hybrid_search [⟨"a.md", "A", -(1/4)⟩, ⟨"b.md", "B", -(1/2)⟩]
      ⟨["a.md", "b.md"], ["A", "B"]⟩ [1, 2] 2 1).map (·.path) = ["b.md", "a.md"] := by
    norm_num [hybrid_search, semantic_search, argsortDesc, sortOnDesc, listMax,
      List.insertionSort, List.orderedInsert, dictSet, bmUpsert, keyGE, List.range_succ]
  have h2 : (semantic_search [(⟨"a.md", "A", -(1/4)⟩ : MCPDocument),
      ⟨"b.md", "B", -(1/2)⟩] 2).map (·.path) = ["a.md", "b.md"] := by
    norm_num [semantic_search]
  rw [h1, h2]
  decide

/-! ### Lemmas on the `doc_scores` dict folds -/

theorem le_foldl_max : ∀ (ss : List ℚ) (s : ℚ), s ≤ ss.foldl max s
  | [], s => le_refl s
  | a :: ss, s => le_trans (le_max_left s a) (le_foldl_max ss (max s a))

theorem listMax_pos {l : List ℚ} (h : ∀ x ∈ l, 0 < x) : 0 < listMax l := by
  cases l with
  | nil => norm_num [listMax]
  | cons s ss => exact lt_of_lt_of_le (h s (by simp)) (le_foldl_max ss s)

/-- Upserting a zero BM25 value into entries whose BM25 parts are all zero
either leaves them unchanged or appends one all-zero entry. -/
theorem bmUpsert_zero (k : String) (d : MCPDocument) :
    ∀ acc : List (String × HEntry), (∀ pe ∈ acc, pe.2.bm = 0) →
      ∃ zs, bmUpsert k 0 d acc = acc ++ zs ∧
        ∀ pe ∈ zs, pe.2.vec = 0 ∧ pe.2.bm = 0 := by
  intro acc
  induction acc with
  | nil => intro _; exact ⟨[(k, ⟨0, 0, d⟩)], rfl, by simp⟩
  | cons pe rest ih =>
    intro h
    obtain ⟨k₀, e₀⟩ := pe
    by_cases hk : k₀ = k
    · refine ⟨[], ?_, by simp⟩
      have he : e₀.bm = 0 := h (k₀, e₀) (by simp)
      have he' : (⟨e₀.vec, 0, e₀.doc⟩ : HEntry) = e₀ := by
        cases e₀; simp_all
      simp [bmUpsert, hk, he']
    · obtain ⟨zs, hzs, hprop⟩ := ih (fun pe hpe => h pe (by simp [hpe]))
      exact ⟨zs, by simp [bmUpsert, hk, hzs], hprop⟩

theorem bm_fold_zero (key : Nat → String) (mkDoc : Nat → MCPDocument)
    (f : List (String × HEntry) → Nat → List (String × HEntry))
    (hf : ∀ acc i, f acc i = bmUpsert (key i) 0 (mkDoc i) acc) :
    ∀ (idxs : List Nat) (acc : List (String × HEntry)),
      (∀ pe ∈ acc, pe.2.bm = 0) →
      ∃ zs, idxs.foldl f acc = acc ++ zs ∧
        ∀ pe ∈ zs, pe.2.vec = 0 ∧ pe.2.bm = 0 := by
  intro idxs
  induction idxs with
  | nil => intro acc _; exact ⟨[], by simp, by simp⟩
  | cons i rest ih =>
    intro acc h
    obtain ⟨zs₁, hz₁, hp₁⟩ := bmUpsert_zero (key i) (mkDoc i) acc h
    have hacc' : ∀ pe ∈ acc ++ zs₁, pe.2.bm = 0 := by
      intro pe hpe
      rcases List.mem_append.mp hpe with h' | h'
      · exact h pe h'
      · exact (hp₁ pe h').2
    obtain ⟨zs₂, hz₂, hp₂⟩ := ih (acc ++ zs₁) hacc'
    refine ⟨zs₁ ++ zs₂, ?_, ?_⟩
    · simp only [List.foldl_cons, hf, hz₁, hz₂, List.append_assoc]
    · intro pe hpe
      rcases List.mem_append.mp hpe with h' | h'
      · exact hp₁ pe h'
      · exact hp₂ pe h'

theorem dictSet_not_mem (key : String) (val : HEntry) :
    ∀ acc : List (String × HEntry), key ∉ acc.map Prod.fst →
      dictSet key val acc = acc ++ [(key, val)] := by
  intro acc
  induction acc with
  | nil => intro _; rfl
  | cons pe rest ih =>
    intro h
    obtain ⟨k₀, e₀⟩ := pe
    simp only [List.map_cons, List.mem_cons] at h
    push_neg at h
    have hne : k₀ ≠ key := fun hh => h.1 hh.symm
    simp [dictSet, hne, ih h.2]

/-- The `doc_scores` initialisation loop over the vector candidates: with
duplicate-free paths it builds exactly one entry per candidate, in
order. -/
theorem init_fold_eq (w maxV : ℚ)
    (g : List (String × HEntry) → MCPDocument → List (String × HEntry))
    (hg : ∀ a d, g a d = dictSet d.path ⟨d.score / maxV * w, 0, d⟩ a) :
    ∀ (vds : List MCPDocument) (acc : List (String × HEntry)),
      (vds.map (·.path)).Nodup → (∀ d ∈ vds, d.path ∉ acc.map Prod.fst) →
      vds.foldl g acc =
        acc ++ vds.map (fun d => (d.path, (⟨d.score / maxV * w, 0, d⟩ : HEntry))) := by
  intro vds
  induction vds with
  | nil => intro acc _ _; simp
  | cons d rest ih =>
    intro acc hnd hdisj
    rw [List.map_cons, List.nodup_cons] at hnd
    have hnd' := hnd
    simp only [List.foldl_cons, hg]
    rw [dictSet_not_mem _ _ acc (hdisj d (by simp))]
    have hdisj' : ∀ d' ∈ rest, d'.path ∉
        (acc ++ [(d.path, (⟨d.score / maxV * w, 0, d⟩ : HEntry))]).map Prod.fst := by
      intro d' hd'
      simp only [List.map_append, List.mem_append]
      push_neg
      refine ⟨hdisj d' (by simp [hd']), ?_⟩
      simp only [List.map_cons, List.map_nil, List.mem_singleton]
      intro heq
      apply hnd'.1
      rw [← heq]
      exact List.mem_map_of_mem (·.path) hd'
    rw [ih _ hnd'.2 hdisj']
    simp

theorem bmUpsert_not_mem (key : String) (val : ℚ) (doc : MCPDocument) :
    ∀ acc : List (String × HEntry), key ∉ acc.map Prod.fst →
      bmUpsert key val doc acc = acc ++ [(key, ⟨0, val, doc⟩)] := by
  intro acc
  induction acc with
  | nil => intro _; rfl
  | cons pe rest ih =>
    intro h
    obtain ⟨k₀, e₀⟩ := pe
    simp only [List.map_cons, List.mem_cons] at h
    push_neg at h
    have hne : k₀ ≠ key := fun hh => h.1 hh.symm
    simp [bmUpsert, hne, ih h.2]

theorem bmUpsert_mem_eq (key : String) (val : ℚ) (doc : MCPDocument) :
    ∀ acc : List (String × HEntry), (acc.map Prod.fst).Nodup →
      key ∈ acc.map Prod.fst →
      bmUpsert key val doc acc =
        acc.map (fun pe =>
          if pe.1 = key then (pe.1, (⟨pe.2.vec, val, pe.2.doc⟩ : HEntry)) else pe) := by
  intro acc
  induction acc with
  | nil => intro _ h; simp at h
  | cons pe rest ih =>
    intro hnd hmem
    obtain ⟨k₀, e₀⟩ := pe
    rw [List.map_cons, List.nodup_cons] at hnd
    have hnd' := hnd
    by_cases hk : k₀ = key
    · subst hk
      have hcongr : ∀ q ∈ rest,
          (if q.1 = k₀ then (q.1, (⟨q.2.vec, val, q.2.doc⟩ : HEntry)) else q) = q := by
        intro q hq
        have hne : q.1 ≠ k₀ := by
          intro heq
          apply hnd'.1
          rw [← heq]
          exact List.mem_map.mpr ⟨q, hq, rfl⟩
        simp [hne]
      have hrest : rest.map (fun q =>
          if q.1 = k₀ then (q.1, (⟨q.2.vec, val, q.2.doc⟩ : HEntry)) else q) = rest := by
        rw [List.map_congr_left hcongr]
        simp
      simp [bmUpsert, hrest]
    · have hmem' : key ∈ rest.map Prod.fst := by
        rw [List.map_cons, List.mem_cons] at hmem
        rcases hmem with h | h
        · exact absurd h.symm hk
        · exact h
      have hne : k₀ ≠ key := hk
      simp [bmUpsert, hne, ih hnd'.2 hmem']

/-- Characterisation of the BM25 pass of `hybrid_search`: with
duplicate-free indices mapping injectively to keys, and duplicate-free
accumulator keys, the fold sets the BM25 field of each hit entry in place
and appends the missing ids in index order. -/
theorem bm_fold_char (key : Nat → String) (val : Nat → ℚ) (mkDoc : Nat → MCPDocument)
    (f : List (String × HEntry) → Nat → List (String × HEntry))
    (hf : ∀ acc i, f acc i = bmUpsert (key i) (val i) (mkDoc i) acc) :
    ∀ (idxs : List Nat) (acc : List (String × HEntry)),
      idxs.Nodup →
      (∀ i ∈ idxs, ∀ j ∈ idxs, key i = key j → i = j) →
      (acc.map Prod.fst).Nodup →
      idxs.foldl f acc =
        acc.map (fun pe =>
          match idxs.find? (fun i => key i == pe.1) with
          | some i => (pe.1, (⟨pe.2.vec, val i, pe.2.doc⟩ : HEntry))
          | none => pe) ++
        (idxs.filter (fun i => decide (key i ∉ acc.map Prod.fst))).map
          (fun i => (key i, (⟨0, val i, mkDoc i⟩ : HEntry))) := by
  intro idxs
  induction idxs with
  | nil =>
    intro acc _ _ _
    simp [List.find?]
  | cons i rest ih =>
    intro acc hnd hinj haccnd
    have hii : i ∉ rest := (List.nodup_cons.mp hnd).1
    have hndr : rest.Nodup := (List.nodup_cons.mp hnd).2
    have hinjr : ∀ a ∈ rest, ∀ b ∈ rest, key a = key b → a = b :=
      fun a ha b hb => hinj a (List.mem_cons_of_mem i ha) b (List.mem_cons_of_mem i hb)
    have hkey_rest : ∀ j ∈ rest, key j ≠ key i := by
      intro j hj heq
      have hji := hinj j (List.mem_cons_of_mem i hj) i (List.mem_cons_self i rest) heq
      exact hii (hji ▸ hj)
    simp only [List.foldl_cons, hf]
    by_cases hmem : key i ∈ acc.map Prod.fst
    · rw [bmUpsert_mem_eq (key i) (val i) (mkDoc i) acc haccnd hmem]
      have hfst : (acc.map (fun pe =>
          if pe.1 = key i then (pe.1, (⟨pe.2.vec, val i, pe.2.doc⟩ : HEntry)) else pe)).map
            Prod.fst = acc.map Prod.fst := by
        rw [List.map_map]
        apply List.map_congr_left
        intro pe _
        by_cases h : pe.1 = key i <;> simp [h]
      rw [ih _ hndr hinjr (by rw [hfst]; exact haccnd)]
      congr 1
      · rw [List.map_map]
        apply List.map_congr_left
        intro pe hpe
        by_cases h : pe.1 = key i
        · have hfind : rest.find? (fun j => key j == pe.1) = none := by
            apply List.find?_eq_none.mpr
            intro j hj
            simp [h, hkey_rest j hj]
          have hfind2 : (i :: rest).find? (fun j => key j == pe.1) = some i := by
            rw [List.find?_cons_of_pos]
            simp [h]
          simp only [Function.comp_apply, if_pos h, hfind, hfind2]
        · have hstep : (i :: rest).find? (fun j => key j == pe.1) =
              rest.find? (fun j => key j == pe.1) := by
            rw [List.find?_cons_of_neg]
            simp only [beq_iff_eq]
            exact fun hh => h hh.symm
          simp only [Function.comp_apply, if_neg h, hstep]
      · rw [hfst, List.filter_cons]
        simp [hmem]
    · rw [bmUpsert_not_mem (key i) (val i) (mkDoc i) acc hmem]
      have hnd₁ : ((acc ++ [(key i, (⟨0, val i, mkDoc i⟩ : HEntry))]).map Prod.fst).Nodup := by
        rw [List.map_append, List.nodup_append]
        refine ⟨haccnd, by simp, ?_⟩
        intro a ha hb
        simp only [List.map_cons, List.map_nil, List.mem_singleton] at hb
        subst hb
        exact hmem ha
      rw [ih _ hndr hinjr hnd₁]
      have hfind : rest.find? (fun j => key j == key i) = none := by
        apply List.find?_eq_none.mpr
        intro j hj
        simp [hkey_rest j hj]
      rw [List.map_append]
      have hacc_map : acc.map (fun pe =>
          match rest.find? (fun j => key j == pe.1) with
          | some j => (pe.1, (⟨pe.2.vec, val j, pe.2.doc⟩ : HEntry))
          | none => pe) =
        acc.map (fun pe =>
          match (i :: rest).find? (fun j => key j == pe.1) with
          | some j => (pe.1, (⟨pe.2.vec, val j, pe.2.doc⟩ : HEntry))
          | none => pe) := by
        apply List.map_congr_left
        intro pe hpe
        have hne : pe.1 ≠ key i := by
          intro heq
          apply hmem
          rw [← heq]
          exact List.mem_map.mpr ⟨pe, hpe, rfl⟩
        have hstep : (i :: rest).find? (fun j => key j == pe.1) =
            rest.find? (fun j => key j == pe.1) := by
          rw [List.find?_cons_of_neg]
          simp only [beq_iff_eq]
          exact fun hh => hne hh.symm
        rw [hstep]
      have hnew : ([(key i, (⟨0, val i, mkDoc i⟩ : HEntry))].map (fun pe =>
          match rest.find? (fun j => key j == pe.1) with
          | some j => (pe.1, (⟨pe.2.vec, val j, pe.2.doc⟩ : HEntry))
          | none => pe)) = [(key i, (⟨0, val i, mkDoc i⟩ : HEntry))] := by
        simp [hfind]
      have hfilter : rest.filter (fun j =>
          decide (key j ∉ (acc ++ [(key i, (⟨0, val i, mkDoc i⟩ : HEntry))]).map Prod.fst)) =
          rest.filter (fun j => decide (key j ∉ acc.map Prod.fst)) := by
        apply List.filter_congr
        intro j hj
        have hne := hkey_rest j hj
        simp [List.map_append, hne]
      rw [hacc_map, hnew, hfilter, List.filter_cons]
      have hdec : decide (key i ∉ acc.map Prod.fst) = true := by simp [hmem]
      rw [if_pos hdec]
      simp

theorem pairwise_of_mem {r : α → α → Prop} {p : α → Prop} {l : List α}
    (hl : ∀ x ∈ l, p x) (hr : ∀ x y, p x → p y → r x y) : l.Pairwise r := by
  induction l with
  | nil => exact List.Pairwise.nil
  | cons a t ih =>
    exact List.Pairwise.cons (fun b hb => hr a b (hl a (by simp)) (hl b (by simp [hb])))
      (ih fun x hx => hl x (by simp [hx]))

theorem filter_eq_singleton_of_unique {l : List α} {p : α → Bool} {a : α}
    (ha : a ∈ l) (hp : p a = true) (huniq : ∀ b ∈ l, p b = true → b = a)
    (hnd : l.Nodup) : l.filter p = [a] := by
  induction l with
  | nil => simp at ha
  | cons h t ih =>
    rw [List.filter_cons]
    rcases List.mem_cons.mp ha with rfl | hat
    · rw [if_pos hp]
      congr 1
      apply List.filter_eq_nil_iff.mpr
      intro b hb hpb
      have hba := huniq b (List.mem_cons_of_mem _ hb) hpb
      subst hba
      exact absurd hb (List.nodup_cons.mp hnd).1
    · cases hph : p h with
      | true =>
        have hha : h = a := huniq h (List.mem_cons_self _ _) hph
        subst hha
        exact absurd hat (List.nodup_cons.mp hnd).1
      | false =>
        rw [if_neg (by simp [hph])]
        exact ih hat (fun b hb hpb => huniq b (List.mem_cons_of_mem _ hb) hpb)
          (List.nodup_cons.mp hnd).2

theorem argsortDesc_nodup (scores : List ℚ) : (argsortDesc scores).Nodup :=
  ((sortOnDesc_perm _ _).nodup_iff).mpr (List.nodup_range _)

theorem argsortDesc_mem {scores : List ℚ} {i : Nat} (h : i ∈ argsortDesc scores) :
    i < scores.length := by
  have hm := (mem_sortOnDesc _).mp h
  simpa using hm

theorem find?_eq_some_of_unique {l : List α} {p : α → Bool} {a : α}
    (ha : a ∈ l) (hp : p a = true) (huniq : ∀ b ∈ l, p b = true → b = a) :
    l.find? p = some a := by
  induction l with
  | nil => simp at ha
  | cons h t ih =>
    rcases List.mem_cons.mp ha with rfl | hat
    · rw [List.find?_cons_of_pos _ hp]
    · cases hph : p h with
      | true =>
        have hha := huniq h (by simp) hph
        subst hha
        rw [List.find?_cons_of_pos _ hph]
      | false =>
        rw [List.find?_cons_of_neg _ (by simp [hph])]
        exact ih hat fun b hb hpb => huniq b (by simp [hb]) hpb

/-- The stable descending sort of the merged `hybrid_search` documents at
`vector_weight = 0`: every top-BM25 id contributes one document scored by
its normalised BM25 value, every other vector candidate is scored zero;
with positive, injective BM25 values listed in descending index order the
sort puts the BM25 documents first, in index order, followed by the
zero-scored leftovers in candidate order. -/
theorem bm_dominant_take (vds : List MCPDocument) (idxs : List Nat)
    (K : Nat → String) (V : Nat → ℚ) (C : Nat → String) (k : Nat)
    (hvnd : (vds.map (·.path)).Nodup)
    (hind : idxs.Nodup)
    (hKinj : ∀ i ∈ idxs, ∀ j ∈ idxs, K i = K j → i = j)
    (hVpos : ∀ i ∈ idxs, 0 < V i)
    (hVinj : ∀ i ∈ idxs, ∀ j ∈ idxs, V i = V j → i = j)
    (hVsorted : idxs.Pairwise (fun i j => V j ≤ V i))
    (hklen : k ≤ idxs.length) :
    (((sortOnDesc (fun x : MCPDocument => x.score)
      (vds.map (fun d => (⟨d.path, d.content,
          match idxs.find? (fun i => K i == d.path) with
          | some i => V i
          | none => 0⟩ : MCPDocument)) ++
       (idxs.filter (fun i => decide (K i ∉ vds.map (·.path)))).map
          (fun i => (⟨K i, C i, V i⟩ : MCPDocument))))).take k).map (·.path) =
      (idxs.take k).map K := by
  classical
  have hvdnd : vds.Nodup := hvnd.of_map
  have hPscore : ∀ i, ((match vds.find? (fun d => d.path == K i) with
      | some d => (⟨d.path, d.content, V i⟩ : MCPDocument)
      | none => (⟨K i, C i, V i⟩ : MCPDocument)) : MCPDocument).score = V i := by
    intro i
    cases hf : vds.find? (fun d => d.path == K i) <;> simp [hf]
  have hPpath : ∀ i, ((match vds.find? (fun d => d.path == K i) with
      | some d => (⟨d.path, d.content, V i⟩ : MCPDocument)
      | none => (⟨K i, C i, V i⟩ : MCPDocument)) : MCPDocument).path = K i := by
    intro i
    cases hf : vds.find? (fun d => d.path == K i) with
    | some d =>
      have := List.find?_some hf
      simpa [hf] using (by simpa using this)
    | none => simp [hf]
  have hkey : sortOnDesc (fun x : MCPDocument => x.score)
      (vds.map (fun d => (⟨d.path, d.content,
          match idxs.find? (fun i => K i == d.path) with
          | some i => V i
          | none => 0⟩ : MCPDocument)) ++
       (idxs.filter (fun i => decide (K i ∉ vds.map (·.path)))).map
          (fun i => (⟨K i, C i, V i⟩ : MCPDocument))) =
      idxs.map (fun i => match vds.find? (fun d => d.path == K i) with
        | some d => (⟨d.path, d.content, V i⟩ : MCPDocument)
        | none => (⟨K i, C i, V i⟩ : MCPDocument)) ++
      (vds.filter (fun d =>
          decide (idxs.find? (fun i => K i == d.path) = none))).map
        (fun d => (⟨d.path, d.content, (0 : ℚ)⟩ : MCPDocument)) := by
    apply sortOnDesc_eq_of
    · refine List.pairwise_append.mpr ⟨?_, ?_, ?_⟩
      · rw [List.pairwise_map]
        apply hVsorted.imp
        intro a b hab
        show (keyGE (fun x : MCPDocument => x.score)) _ _
        unfold keyGE
        beta_reduce
        rw [hPscore a, hPscore b]
        exact hab
      · apply @pairwise_of_mem _ _ (fun x : MCPDocument => x.score = 0)
        · intro x hx
          obtain ⟨d, hd, rfl⟩ := List.mem_map.mp hx
          rfl
        · intro x y hx hy
          show y.score ≤ x.score
          rw [hx, hy]
      · intro a ha b hb
        show b.score ≤ a.score
        obtain ⟨i, hi, rfl⟩ := List.mem_map.mp ha
        obtain ⟨d, hd, rfl⟩ := List.mem_map.mp hb
        rw [hPscore i]
        exact le_of_lt (hVpos i hi)
    · intro s
      rw [List.filter_append, List.filter_append]
      by_cases hex : ∃ i, i ∈ idxs ∧ V i = s
      · obtain ⟨i₀, hi₀, hVi₀⟩ := hex
        have hspos : 0 < s := hVi₀ ▸ hVpos i₀ hi₀
        have huniq : ∀ j ∈ idxs, V j = s → j = i₀ := fun j hj hVj =>
          hVinj j hj i₀ hi₀ (by rw [hVj, hVi₀])
        have hPfilter : (idxs.map (fun i =>
            match vds.find? (fun d => d.path == K i) with
            | some d => (⟨d.path, d.content, V i⟩ : MCPDocument)
            | none => (⟨K i, C i, V i⟩ : MCPDocument))).filter
              (fun x => x.score == s) = [match vds.find? (fun d => d.path == K i₀) with
            | some d => (⟨d.path, d.content, V i₀⟩ : MCPDocument)
            | none => (⟨K i₀, C i₀, V i₀⟩ : MCPDocument)] := by
          rw [List.filter_map]
          have hidf : idxs.filter (fun i => ((match vds.find? (fun d => d.path == K i) with
              | some d => (⟨d.path, d.content, V i⟩ : MCPDocument)
              | none => (⟨K i, C i, V i⟩ : MCPDocument)) : MCPDocument).score == s) = [i₀] := by
            apply filter_eq_singleton_of_unique hi₀
              (by simp only [hPscore]; simp [hVi₀])
              (fun j hj hpj => huniq j hj (by
                simp only [hPscore] at hpj
                simpa using hpj)) hind
          rw [show (fun (x : MCPDocument) => x.score == s) ∘ (fun i =>
              match vds.find? (fun d => d.path == K i) with
              | some d => (⟨d.path, d.content, V i⟩ : MCPDocument)
              | none => (⟨K i, C i, V i⟩ : MCPDocument)) = fun i =>
                ((match vds.find? (fun d => d.path == K i) with
              | some d => (⟨d.path, d.content, V i⟩ : MCPDocument)
              | none => (⟨K i, C i, V i⟩ : MCPDocument)) : MCPDocument).score == s from rfl,
            hidf, List.map_cons, List.map_nil]
        have hZfilter : ((vds.filter (fun d =>
            decide (idxs.find? (fun i => K i == d.path) = none))).map
            (fun d => (⟨d.path, d.content, (0 : ℚ)⟩ : MCPDocument))).filter
              (fun x => x.score == s) = [] := by
          apply List.filter_eq_nil_iff.mpr
          intro x hx
          obtain ⟨d, hd, rfl⟩ := List.mem_map.mp hx
          simpa using ne_of_lt hspos
        rw [hPfilter, hZfilter, List.append_nil]
        have hD₁cond : ∀ d ∈ vds, (((⟨d.path, d.content,
            match idxs.find? (fun i => K i == d.path) with
            | some i => V i
            | none => 0⟩ : MCPDocument)).score == s) = (d.path == K i₀) := by
          intro d hd
          cases hf : idxs.find? (fun i => K i == d.path) with
          | none =>
            simp only [hf]
            have h0 : ¬((0 : ℚ) == s) = true := by simpa using (ne_of_lt hspos)
            have hnp : ¬(d.path == K i₀) = true := by
              intro hc
              have hpath : d.path = K i₀ := by simpa using hc
              have hff : idxs.find? (fun i => K i == d.path) = some i₀ := by
                apply find?_eq_some_of_unique hi₀ (by simp [hpath])
                intro j hj hpj
                exact hKinj j hj i₀ hi₀ (by rw [hpath] at hpj; simpa using hpj)
              rw [hff] at hf
              exact Option.noConfusion hf
            rw [Bool.eq_iff_iff]
            simp [h0, hnp]
          | some i =>
            have himem : i ∈ idxs := List.mem_of_find?_eq_some hf
            have hKi : K i = d.path := by simpa using List.find?_some hf
            simp only [hf]
            rw [Bool.eq_iff_iff]
            constructor
            · intro hc
              have hVi : V i = s := by simpa using hc
              have := huniq i himem hVi
              subst this
              simp [hKi.symm]
            · intro hc
              have hpath : d.path = K i₀ := by simpa using hc
              have hii : i = i₀ := hKinj i himem i₀ hi₀ (by rw [hKi, hpath])
              subst hii
              simpa using hVi₀
        cases hvf : vds.find? (fun d => d.path == K i₀) with
        | some d₀ =>
          have hd₀mem : d₀ ∈ vds := List.mem_of_find?_eq_some hvf
          have hd₀path : d₀.path = K i₀ := by simpa using List.find?_some hvf
          have hD₁filter : (vds.map (fun d => (⟨d.path, d.content,
              match idxs.find? (fun i => K i == d.path) with
              | some i => V i
              | none => 0⟩ : MCPDocument))).filter (fun x => x.score == s) =
              [(⟨d₀.path, d₀.content,
                match idxs.find? (fun i => K i == d₀.path) with
                | some i => V i
                | none => 0⟩ : MCPDocument)] := by
            rw [List.filter_map]
            unfold Function.comp
            beta_reduce
            rw [List.filter_congr hD₁cond]
            rw [filter_eq_singleton_of_unique hd₀mem (by simp [hd₀path])
              (fun b hb hpb => List.inj_on_of_nodup_map hvnd hb hd₀mem
                (by rw [hd₀path]; simpa using hpb)) hvdnd]
            simp
          have hD₂filter : (((idxs.filter (fun i => decide (K i ∉ vds.map (·.path)))).map
              (fun i => (⟨K i, C i, V i⟩ : MCPDocument)))).filter
                (fun x => x.score == s) = [] := by
            apply List.filter_eq_nil_iff.mpr
            intro x hx
            obtain ⟨i, hi, rfl⟩ := List.mem_map.mp hx
            obtain ⟨himem, hinot⟩ := List.mem_filter.mp hi
            intro hc
            have hVi : V i = s := by simpa using hc
            have hii := huniq i himem hVi
            subst hii
            have : K i ∈ vds.map (·.path) := by
              rw [← hd₀path]
              exact List.mem_map.mpr ⟨d₀, hd₀mem, rfl⟩
            simpa [this] using hinot
          rw [hD₁filter, hD₂filter, List.append_nil]
          have hff : idxs.find? (fun i => K i == d₀.path) = some i₀ := by
            apply find?_eq_some_of_unique hi₀ (by simp [hd₀path])
            intro j hj hpj
            refine hKinj j hj i₀ hi₀ ?_
            have hj' : K j = d₀.path := by simpa using hpj
            rw [hj', hd₀path]
          simp only [hvf, hff]
        | none =>
          have hnone : ∀ d ∈ vds, d.path ≠ K i₀ := by
            intro d hd hc
            have := List.find?_eq_none.mp hvf d hd
            simp [hc] at this
          have hD₁filter : (vds.map (fun d => (⟨d.path, d.content,
              match idxs.find? (fun i => K i == d.path) with
              | some i => V i
              | none => 0⟩ : MCPDocument))).filter (fun x => x.score == s) = [] := by
            rw [List.filter_map]
            unfold Function.comp
            beta_reduce
            rw [List.filter_congr hD₁cond]
            have : vds.filter (fun d => d.path == K i₀) = [] := by
              apply List.filter_eq_nil_iff.mpr
              intro d hd
              simpa using hnone d hd
            rw [this, List.map_nil]
          have hKnot : K i₀ ∉ vds.map (·.path) := by
            intro hc
            obtain ⟨d, hd, hdp⟩ := List.mem_map.mp hc
            exact hnone d hd hdp
          have hD₂filter : (((idxs.filter (fun i => decide (K i ∉ vds.map (·.path)))).map
              (fun i => (⟨K i, C i, V i⟩ : MCPDocument)))).filter
                (fun x => x.score == s) = [(⟨K i₀, C i₀, V i₀⟩ : MCPDocument)] := by
            rw [List.filter_map]
            have hmemf : i₀ ∈ idxs.filter (fun i => decide (K i ∉ vds.map (·.path))) :=
              List.mem_filter.mpr ⟨hi₀, by simpa using hKnot⟩
            rw [filter_eq_singleton_of_unique hmemf (by simpa using hVi₀)
              (fun j hj hpj => huniq j (List.mem_filter.mp hj).1 (by simpa using hpj))
              (hind.filter _)]
            simp
          rw [hD₁filter, hD₂filter, List.nil_append]
      · push_neg at hex
        by_cases hs0 : s = 0
        · subst hs0
          have hPfilter : (idxs.map (fun i =>
              match vds.find? (fun d => d.path == K i) with
              | some d => (⟨d.path, d.content, V i⟩ : MCPDocument)
              | none => (⟨K i, C i, V i⟩ : MCPDocument))).filter
                (fun x => x.score == 0) = [] := by
            apply List.filter_eq_nil_iff.mpr
            intro x hx
            obtain ⟨i, hi, rfl⟩ := List.mem_map.mp hx
            rw [hPscore i]
            simpa using hex i hi
          have hZfilter : ((vds.filter (fun d =>
              decide (idxs.find? (fun i => K i == d.path) = none))).map
              (fun d => (⟨d.path, d.content, (0 : ℚ)⟩ : MCPDocument))).filter
                (fun x => x.score == 0) =
              (vds.filter (fun d =>
              decide (idxs.find? (fun i => K i == d.path) = none))).map
              (fun d => (⟨d.path, d.content, (0 : ℚ)⟩ : MCPDocument)) := by
            apply List.filter_eq_self.mpr
            intro x hx
            obtain ⟨d, hd, rfl⟩ := List.mem_map.mp hx
            simp
          have hD₂filter : (((idxs.filter (fun i => decide (K i ∉ vds.map (·.path)))).map
              (fun i => (⟨K i, C i, V i⟩ : MCPDocument)))).filter
                (fun x => x.score == 0) = [] := by
            apply List.filter_eq_nil_iff.mpr
            intro x hx
            obtain ⟨i, hi, rfl⟩ := List.mem_map.mp hx
            simpa using hex i (List.mem_filter.mp hi).1
          have hD₁filter : (vds.map (fun d => (⟨d.path, d.content,
              match idxs.find? (fun i => K i == d.path) with
              | some i => V i
              | none => 0⟩ : MCPDocument))).filter (fun x => x.score == 0) =
              (vds.filter (fun d =>
              decide (idxs.find? (fun i => K i == d.path) = none))).map
              (fun d => (⟨d.path, d.content, (0 : ℚ)⟩ : MCPDocument)) := by
            rw [List.filter_map]
            have hcond : ∀ d ∈ vds, (((⟨d.path, d.content,
                match idxs.find? (fun i => K i == d.path) with
                | some i => V i
                | none => 0⟩ : MCPDocument)).score == 0) =
                decide (idxs.find? (fun i => K i == d.path) = none) := by
              intro d hd
              cases hf : idxs.find? (fun i => K i == d.path) with
              | none => simp [hf]
              | some i =>
                have himem : i ∈ idxs := List.mem_of_find?_eq_some hf
                simp only [hf]
                rw [Bool.eq_iff_iff]
                constructor
                · intro hc
                  exact absurd (by simpa using hc) (hex i himem)
                · intro hc
                  simp at hc
            unfold Function.comp
            beta_reduce
            rw [List.filter_congr hcond]
            apply List.map_congr_left
            intro d hd
            have := List.mem_filter.mp hd
            have hf : idxs.find? (fun i => K i == d.path) = none := by
              simpa using this.2
            simp [hf]
          rw [hPfilter, hZfilter, hD₁filter, hD₂filter, List.nil_append,
            List.append_nil]
        · have hPfilter : (idxs.map (fun i =>
              match vds.find? (fun d => d.path == K i) with
              | some d => (⟨d.path, d.content, V i⟩ : MCPDocument)
              | none => (⟨K i, C i, V i⟩ : MCPDocument))).filter
                (fun x => x.score == s) = [] := by
            apply List.filter_eq_nil_iff.mpr
            intro x hx
            obtain ⟨i, hi, rfl⟩ := List.mem_map.mp hx
            rw [hPscore i]
            simpa using hex i hi
          have hZfilter : ((vds.filter (fun d =>
              decide (idxs.find? (fun i => K i == d.path) = none))).map
              (fun d => (⟨d.path, d.content, (0 : ℚ)⟩ : MCPDocument))).filter
                (fun x => x.score == s) = [] := by
            apply List.filter_eq_nil_iff.mpr
            intro x hx
            obtain ⟨d, hd, rfl⟩ := List.mem_map.mp hx
            simpa using fun hc => hs0 hc.symm
          have hD₁filter : (vds.map (fun d => (⟨d.path, d.content,
              match idxs.find? (fun i => K i == d.path) with
              | some i => V i
              | none => 0⟩ : MCPDocument))).filter (fun x => x.score == s) = [] := by
            apply List.filter_eq_nil_iff.mpr
            intro x hx
            obtain ⟨d, hd, rfl⟩ := List.mem_map.mp hx
            cases hf : idxs.find? (fun i => K i == d.path) with
            | none =>
              simp only [hf]
              simpa using fun hc => hs0 hc.symm
            | some i =>
              simp only [hf]
              simpa using hex i (List.mem_of_find?_eq_some hf)
          have hD₂filter : (((idxs.filter (fun i => decide (K i ∉ vds.map (·.path)))).map
              (fun i => (⟨K i, C i, V i⟩ : MCPDocument)))).filter
                (fun x => x.score == s) = [] := by
            apply List.filter_eq_nil_iff.mpr
            intro x hx
            obtain ⟨i, hi, rfl⟩ := List.mem_map.mp hx
            simpa using hex i (List.mem_filter.mp hi).1
          rw [hPfilter, hZfilter, hD₁filter, hD₂filter]
  rw [hkey]
  rw [List.take_append_of_le_length (by rw [List.length_map]; exact hklen)]
  rw [← List.map_take, List.map_map]
  apply List.map_congr_left
  intro i hi
  simp only [Function.comp_apply]
  exact hPpath i

/-- C1 (amended): for corpora on which the normalisations are
order-preserving — all vector similarities positive (the vector source is
returned best-first), all BM25 scores positive and pairwise distinct, at
least `k` documents on each side, duplicate-free paths/ids — hybrid
retrieval at `vector_weight = 1.0` ranks exactly like pure vector
retrieval, and at `vector_weight = 0.0` exactly like the pure BM25 keyword
ranking.  (With negative similarities the claim fails, see the
counterexample.) -/
theorem hybrid_weight_extremes (vecRank : List MCPDocument) (store : VectorStore)
    (bm25Scores : List ℚ) (k : Nat)
    (hsorted : vecRank.Pairwise (fun a b => b.score ≤ a.score))
    (hpos : ∀ d ∈ vecRank, 0 < d.score)
    (hk : k ≤ vecRank.length)
    (hvp : (vecRank.map (·.path)).Nodup)
    (hids : store.ids.Nodup)
    (hlen : bm25Scores.length = store.ids.length)
    (hbpos : ∀ s ∈ bm25Scores, 0 < s)
    (hbnd : bm25Scores.Nodup)
    (hkb : k ≤ bm25Scores.length) :
    (hybrid_search vecRank store bm25Scores k 1).map (·.path) =
      (semantic_search vecRank k).map (·.path) ∧
    (hybrid_search vecRank store bm25Scores k 0).map (·.path) =
      keyword_ranking store bm25Scores k := by
  have hvds_nodup : ((vecRank.take (k * 2)).map (·.path)).Nodup := by
    rw [List.map_take]
    exact hvp.sublist (List.take_sublist _ _)
  constructor
  · -- vector_weight = 1
    simp only [hybrid_search, semantic_search]
    set M := listMax (List.map (fun x => x.score) (List.take (k * 2) vecRank)) with hM
    have hM_pos : 0 < M := by
      apply listMax_pos
      intro x hx
      obtain ⟨d, hd, rfl⟩ := List.mem_map.mp hx
      exact hpos d ((List.take_sublist _ _).subset hd)
    have hinit := init_fold_eq 1 M
      (fun acc d => dictSet d.path ⟨d.score / M * 1, 0, d⟩ acc) (fun a d => rfl)
      (vecRank.take (k * 2)) [] hvds_nodup (by simp)
    rw [hinit]
    simp only [List.nil_append]
    obtain ⟨zs, hz, hzs⟩ := bm_fold_zero
      (fun idx => store.ids.getD idx "")
      (fun idx => ⟨store.ids.getD idx "", store.contents.getD idx "", 0⟩)
      (fun acc idx => bmUpsert (store.ids.getD idx "")
        (bm25Scores.getD idx 0 / listMax bm25Scores * (1 - 1))
        ⟨store.ids.getD idx "", store.contents.getD idx "", 0⟩ acc)
      (fun acc i => by norm_num)
      ((argsortDesc bm25Scores).take (k * 2))
      ((vecRank.take (k * 2)).map (fun d => (d.path, (⟨d.score / M * 1, 0, d⟩ : HEntry))))
      (by
        intro pe hpe
        obtain ⟨d, hd, rfl⟩ := List.mem_map.mp hpe
        rfl)
    rw [hz, List.map_append, List.map_map]
    have hZ0 : ∀ x ∈ zs.map (fun pe =>
        (⟨pe.2.doc.path, pe.2.doc.content, pe.2.vec + pe.2.bm⟩ : MCPDocument)),
        x.score = 0 := by
      intro x hx
      obtain ⟨pe, hpe, rfl⟩ := List.mem_map.mp hx
      have := hzs pe hpe
      simp [this.1, this.2]
    have hApos : ∀ x ∈ (vecRank.take (k * 2)).map
        ((fun pe => (⟨pe.2.doc.path, pe.2.doc.content, pe.2.vec + pe.2.bm⟩ : MCPDocument)) ∘
          (fun d => (d.path, (⟨d.score / M * 1, 0, d⟩ : HEntry)))), 0 < x.score := by
      intro x hx
      obtain ⟨d, hd, rfl⟩ := List.mem_map.mp hx
      have hd' : 0 < d.score := hpos d ((List.take_sublist _ _).subset hd)
      show 0 < d.score / M * 1 + 0
      rw [mul_one, add_zero]
      exact div_pos hd' hM_pos
    have hsortedAZ : (((vecRank.take (k * 2)).map
        ((fun pe => (⟨pe.2.doc.path, pe.2.doc.content, pe.2.vec + pe.2.bm⟩ : MCPDocument)) ∘
          (fun d => (d.path, (⟨d.score / M * 1, 0, d⟩ : HEntry))))) ++
        zs.map (fun pe =>
          (⟨pe.2.doc.path, pe.2.doc.content, pe.2.vec + pe.2.bm⟩ : MCPDocument))).Pairwise
          (keyGE (fun x => x.score)) := by
      rw [List.pairwise_append]
      refine ⟨?_, ?_, ?_⟩
      · rw [List.pairwise_map]
        have hvs : (vecRank.take (k * 2)).Pairwise (fun a b => b.score ≤ a.score) :=
          hsorted.sublist (List.take_sublist _ _)
        apply hvs.imp
        intro a b hab
        show b.score / M * 1 + 0 ≤ a.score / M * 1 + 0
        rw [mul_one, mul_one, add_zero, add_zero]
        gcongr
      · exact pairwise_of_mem hZ0 (fun x y hx hy => by
          show y.score ≤ x.score
          rw [hx, hy])
      · intro a ha b hb
        show b.score ≤ a.score
        rw [hZ0 b hb]
        exact le_of_lt (hApos a ha)
    rw [sortOnDesc_eq_self _ hsortedAZ]
    have hlenA : k ≤ ((vecRank.take (k * 2)).map
        ((fun pe => (⟨pe.2.doc.path, pe.2.doc.content, pe.2.vec + pe.2.bm⟩ : MCPDocument)) ∘
          (fun d => (d.path, (⟨d.score / M * 1, 0, d⟩ : HEntry))))).length := by
      rw [List.length_map, List.length_take]
      omega
    rw [List.take_append_of_le_length hlenA, ← List.map_take, List.take_take]
    have hmin : min k (k * 2) = k := by omega
    rw [hmin, List.map_map]
    rfl
  · -- vector_weight = 0
    simp only [hybrid_search, semantic_search, keyword_ranking]
    set M := listMax (List.map (fun x => x.score) (List.take (k * 2) vecRank)) with hM
    set B := listMax bm25Scores with hB
    have hB_pos : 0 < B := listMax_pos hbpos
    have hidxs_nd : ((argsortDesc bm25Scores).take (k * 2)).Nodup :=
      (argsortDesc_nodup _).sublist (List.take_sublist _ _)
    have hbound : ∀ i ∈ (argsortDesc bm25Scores).take (k * 2), i < bm25Scores.length :=
      fun i hi => argsortDesc_mem ((List.take_sublist _ _).subset hi)
    have hinit := init_fold_eq 0 M
      (fun acc d => dictSet d.path ⟨d.score / M * 0, 0, d⟩ acc) (fun a d => rfl)
      (vecRank.take (k * 2)) [] hvds_nodup (by simp)
    rw [hinit]
    simp only [List.nil_append]
    have hE₀nd : (((vecRank.take (k * 2)).map
        (fun d => (d.path, (⟨d.score / M * 0, 0, d⟩ : HEntry)))).map Prod.fst).Nodup := by
      rw [List.map_map]
      exact hvds_nodup
    have hKinj : ∀ i ∈ (argsortDesc bm25Scores).take (k * 2),
        ∀ j ∈ (argsortDesc bm25Scores).take (k * 2),
        store.ids.getD i "" = store.ids.getD j "" → i = j := by
      intro i hi j hj hkeq
      have hi' : i < store.ids.length := hlen ▸ hbound i hi
      have hj' : j < store.ids.length := hlen ▸ hbound j hj
      rw [List.getD_eq_getElem store.ids "" hi', List.getD_eq_getElem store.ids "" hj'] at hkeq
      exact (List.Nodup.getElem_inj_iff hids).mp hkeq
    have hchar := bm_fold_char (fun i => store.ids.getD i "")
      (fun i => bm25Scores.getD i 0 / B * (1 - 0))
      (fun i => ⟨store.ids.getD i "", store.contents.getD i "", 0⟩)
      (fun acc idx => bmUpsert (store.ids.getD idx "")
        (bm25Scores.getD idx 0 / B * (1 - 0))
        ⟨store.ids.getD idx "", store.contents.getD idx "", 0⟩ acc)
      (fun acc i => rfl) ((argsortDesc bm25Scores).take (k * 2))
      ((vecRank.take (k * 2)).map (fun d => (d.path, (⟨d.score / M * 0, 0, d⟩ : HEntry))))
      hidxs_nd hKinj hE₀nd
    rw [hchar]
    beta_reduce
    rw [List.map_append]
    have hD₁ : List.map (fun pe =>
        (⟨pe.2.doc.path, pe.2.doc.content, pe.2.vec + pe.2.bm⟩ : MCPDocument))
        (List.map (fun pe =>
          match List.find? (fun i => store.ids.getD i "" == pe.1)
              (List.take (k * 2) (argsortDesc bm25Scores)) with
          | some i => (pe.1, (⟨pe.2.vec, bm25Scores.getD i 0 / B * (1 - 0), pe.2.doc⟩ : HEntry))
          | none => pe)
        (List.map (fun d => (d.path, (⟨d.score / M * 0, 0, d⟩ : HEntry)))
          (List.take (k * 2) vecRank))) =
      List.map (fun d => (⟨d.path, d.content,
          match List.find? (fun i => store.ids.getD i "" == d.path)
              (List.take (k * 2) (argsortDesc bm25Scores)) with
          | some i => bm25Scores.getD i 0 / B * (1 - 0)
          | none => 0⟩ : MCPDocument))
        (List.take (k * 2) vecRank) := by
      rw [List.map_map, List.map_map]
      apply List.map_congr_left
      intro d hd
      simp only [Function.comp_apply]
      cases hf : List.find? (fun i => store.ids.getD i "" == d.path)
          (List.take (k * 2) (argsortDesc bm25Scores)) with
      | some i =>
        simp only [hf]
        norm_num
      | none =>
        simp only [hf]
        norm_num
    have hD₂ : List.map (fun pe =>
        (⟨pe.2.doc.path, pe.2.doc.content, pe.2.vec + pe.2.bm⟩ : MCPDocument))
        (List.map (fun i => (store.ids.getD i "",
          (⟨0, bm25Scores.getD i 0 / B * (1 - 0),
            ⟨store.ids.getD i "", store.contents.getD i "", 0⟩⟩ : HEntry)))
        (List.filter (fun i => decide (store.ids.getD i "" ∉
            List.map Prod.fst (List.map (fun d => (d.path, (⟨d.score / M * 0, 0, d⟩ : HEntry)))
              (List.take (k * 2) vecRank))))
          (List.take (k * 2) (argsortDesc bm25Scores)))) =
      List.map (fun i => (⟨store.ids.getD i "", store.contents.getD i "",
          bm25Scores.getD i 0 / B * (1 - 0)⟩ : MCPDocument))
        (List.filter (fun i => decide (store.ids.getD i "" ∉
            List.map (fun x => x.path) (List.take (k * 2) vecRank)))
          (List.take (k * 2) (argsortDesc bm25Scores))) := by
      have hfst : List.map Prod.fst
          (List.map (fun d => (d.path, (⟨d.score / M * 0, 0, d⟩ : HEntry)))
            (List.take (k * 2) vecRank)) =
          List.map (fun x => x.path) (List.take (k * 2) vecRank) := by
        rw [List.map_map]
        rfl
      rw [hfst, List.map_map]
      apply List.map_congr_left
      intro i hi
      simp only [Function.comp_apply]
      norm_num
    rw [hD₁, hD₂]
    have hVpos : ∀ i ∈ (argsortDesc bm25Scores).take (k * 2),
        0 < bm25Scores.getD i 0 / B * (1 - 0) := by
      intro i hi
      have hmem : bm25Scores.getD i 0 ∈ bm25Scores := by
        rw [List.getD_eq_getElem bm25Scores 0 (hbound i hi)]
        exact List.getElem_mem _
      rw [sub_zero, mul_one]
      exact div_pos (hbpos _ hmem) hB_pos
    have hVinj : ∀ i ∈ (argsortDesc bm25Scores).take (k * 2),
        ∀ j ∈ (argsortDesc bm25Scores).take (k * 2),
        bm25Scores.getD i 0 / B * (1 - 0) = bm25Scores.getD j 0 / B * (1 - 0) → i = j := by
      intro i hi j hj hveq
      rw [sub_zero, mul_one, mul_one] at hveq
      have hBne : B ≠ 0 := ne_of_gt hB_pos
      have hsc : bm25Scores.getD i 0 = bm25Scores.getD j 0 := by
        field_simp [hBne] at hveq
        simpa [List.getD_eq_getElem?_getD] using hveq
      rw [List.getD_eq_getElem bm25Scores 0 (hbound i hi),
        List.getD_eq_getElem bm25Scores 0 (hbound j hj)] at hsc
      exact (List.Nodup.getElem_inj_iff hbnd).mp hsc
    have hVsorted : ((argsortDesc bm25Scores).take (k * 2)).Pairwise
        (fun i j => bm25Scores.getD j 0 / B * (1 - 0) ≤
          bm25Scores.getD i 0 / B * (1 - 0)) := by
      have h0 : List.Pairwise (keyGE fun i => bm25Scores.getD i 0) (argsortDesc bm25Scores) :=
        sortOnDesc_sorted _ _
      have h1 := h0.sublist (List.take_sublist (k * 2) (argsortDesc bm25Scores))
      apply h1.imp
      intro a b hab
      rw [sub_zero, mul_one, mul_one]
      have hab' : bm25Scores.getD b 0 ≤ bm25Scores.getD a 0 := hab
      gcongr
    have hklen : k ≤ ((argsortDesc bm25Scores).take (k * 2)).length := by
      rw [List.length_take]
      have hlenarg : (argsortDesc bm25Scores).length = bm25Scores.length := by
        unfold argsortDesc
        rw [sortOnDesc_length, List.length_range]
      omega
    have hmain := bm_dominant_take (List.take (k * 2) vecRank)
      (List.take (k * 2) (argsortDesc bm25Scores))
      (fun i => store.ids.getD i "")
      (fun i => bm25Scores.getD i 0 / B * (1 - 0))
      (fun i => store.contents.getD i "") k
      hvds_nodup hidxs_nd hKinj hVpos hVinj hVsorted hklen
    beta_reduce at hmain
    rw [hmain, List.take_take]
    have hmin : min k (k * 2) = k := by omega
    rw [hmin]

/-- Witness for the amended C1 on a concrete 4-document corpus. -/
theorem hybrid_weight_extremes_witness :
    (hybrid_search [⟨"a.md", "A", 4⟩, ⟨"b.md", "B", 3⟩, ⟨"c.md", "C", 2⟩, ⟨"d.md", "D", 1⟩]
        ⟨["a.md", "b.md", "c.md", "d.md"], ["A", "B", "C", "D"]⟩ [1, 2, 3, 4] 2 1).map (·.path) =
      (semantic_search [⟨"a.md", "A", 4⟩, ⟨"b.md", "B", 3⟩, ⟨"c.md", "C", 2⟩,
        ⟨"d.md", "D", 1⟩] 2).map (·.path) ∧
    (hybrid_search [⟨"a.md", "A", 4⟩, ⟨"b.md", "B", 3⟩, ⟨"c.md", "C", 2⟩, ⟨"d.md", "D", 1⟩]
        ⟨["a.md", "b.md", "c.md", "d.md"], ["A", "B", "C", "D"]⟩ [1, 2, 3, 4] 2 0).map (·.path) =
      keyword_ranking ⟨["a.md", "b.md", "c.md", "d.md"], ["A", "B", "C", "D"]⟩ [1, 2, 3, 4] 2 := by
  apply hybrid_weight_extremes
  · norm_num [List.pairwise_cons]
  · intro d hd
    simp only [List.mem_cons, List.not_mem_nil, or_false] at hd
    rcases hd with rfl | rfl | rfl | rfl <;> norm_num
  · norm_num
  · decide
  · decide
  · decide
  · intro x hx
    simp only [List.mem_cons, List.not_mem_nil, or_false] at hx
    rcases hx with rfl | rfl | rfl | rfl <;> norm_num
  · norm_num [List.nodup_cons]
  · norm_num

/-- C4 counterexample: with `max_context_tokens = 1` and an 8-character
context (estimate 2 > 1), the code keeps `int(8 * 1/2) = 4` characters and
then appends the 16-character truncation marker, so the result has 20
characters — far over the claimed `4 × max_context_tokens = 4` bound. -/
theorem token_limit_counterexample :
    ¬ ((enforce_token_limit 1 (List.replicate 8 'a')).length ≤ 4 * 1) := by
  decide

/-- C4 (amended): contexts within budget are returned unchanged; when the
estimate exceeds the budget the result always ends with the truncation
marker, but its length lies between `4B + 16` and `4B + 18` characters
(`B = max_context_tokens`, marker length 16) — the marker is appended
after the cut, so the claimed `4B` bound never holds on truncation. -/
theorem enforce_token_limit_spec (B : Nat) (ctx : List Char) :
    (estimate_tokens ctx ≤ B → enforce_token_limit B ctx = ctx) ∧
    (B < estimate_tokens ctx →
      4 * B + truncMarker.length ≤ (enforce_token_limit B ctx).length ∧
      (enforce_token_limit B ctx).length ≤ 4 * B + 2 + truncMarker.length ∧
      truncMarker.IsSuffix (enforce_token_limit B ctx)) := by
  constructor
  · intro h
    unfold enforce_token_limit
    rw [if_neg (by omega)]
  · intro h
    unfold enforce_token_limit estimate_tokens
    unfold estimate_tokens at h
    rw [if_pos h]
    have hE_pos : 0 < ctx.length / 4 := by omega
    have htarget_le : ctx.length * B / (ctx.length / 4) ≤ ctx.length := by
      calc ctx.length * B / (ctx.length / 4)
          ≤ ctx.length * (ctx.length / 4) / (ctx.length / 4) := by
            apply Nat.div_le_div_right
            exact Nat.mul_le_mul_left _ (le_of_lt h)
        _ = ctx.length := Nat.mul_div_cancel _ hE_pos
    have hlen : ((ctx.take (ctx.length * B / (ctx.length / 4))) ++ truncMarker).length =
        ctx.length * B / (ctx.length / 4) + truncMarker.length := by
      rw [List.length_append, List.length_take]
      omega
    have hlow : 4 * B ≤ ctx.length * B / (ctx.length / 4) := by
      have h1 : (ctx.length / 4) * (4 * B) ≤ ctx.length * B := by
        have := Nat.div_mul_le_self ctx.length 4
        calc (ctx.length / 4) * (4 * B) = (ctx.length / 4 * 4) * B := by ring
          _ ≤ ctx.length * B := Nat.mul_le_mul_right _ this
      calc 4 * B = (ctx.length / 4) * (4 * B) / (ctx.length / 4) := by
            rw [Nat.mul_div_cancel_left _ hE_pos]
        _ ≤ ctx.length * B / (ctx.length / 4) := Nat.div_le_div_right h1
    have hhigh : ctx.length * B / (ctx.length / 4) ≤ 4 * B + 2 := by
      have hL : ctx.length ≤ 4 * (ctx.length / 4) + 3 := by omega
      have h1 : ctx.length * B ≤ (4 * B) * (ctx.length / 4) + 3 * B := by
        calc ctx.length * B ≤ (4 * (ctx.length / 4) + 3) * B :=
              Nat.mul_le_mul_right _ hL
          _ = (4 * B) * (ctx.length / 4) + 3 * B := by ring
      have h2 : ((4 * B) * (ctx.length / 4) + 3 * B) / (ctx.length / 4) =
          4 * B + 3 * B / (ctx.length / 4) := by
        rw [Nat.add_comm, Nat.add_mul_div_right _ _ hE_pos, Nat.add_comm]
      have h3 : 3 * B / (ctx.length / 4) ≤ 2 := by
        have hlt : 3 * B < 3 * (ctx.length / 4) := by omega
        have h4 : 3 * B / (ctx.length / 4) < 3 :=
          (Nat.div_lt_iff_lt_mul hE_pos).mpr hlt
        omega
      calc ctx.length * B / (ctx.length / 4)
          ≤ ((4 * B) * (ctx.length / 4) + 3 * B) / (ctx.length / 4) :=
            Nat.div_le_div_right h1
        _ = 4 * B + 3 * B / (ctx.length / 4) := h2
        _ ≤ 4 * B + 2 := by omega
    refine ⟨?_, ?_, ?_⟩
    · rw [hlen]; omega
    · rw [hlen]; omega
    · exact List.suffix_append _ _

/-- Witness for the amended C4: the counterexample input, seen through the
amended bounds. -/
theorem enforce_token_limit_spec_witness :
    1 < estimate_tokens (List.replicate 8 'a') ∧
    4 * 1 + truncMarker.length ≤ (enforce_token_limit 1 (List.replicate 8 'a')).length ∧
    estimate_tokens (List.replicate 3 'a') ≤ 1 ∧
    enforce_token_limit 1 (List.replicate 3 'a') = List.replicate 3 'a' := by
  have h := (enforce_token_limit_spec 1 (List.replicate 8 'a')).2 (by decide)
  have h2 := (enforce_token_limit_spec 1 (List.replicate 3 'a')).1 (by decide)
  exact ⟨by decide, h.1, by decide, h2⟩

/-- C8 counterexample: the fallback branch returns `candidates[:top_k]`,
not the whole input — with four candidates and `top_k = 3` the fourth
document is dropped, so the result is not the original candidate list. -/
theorem rerank_unavailable_counterexample :
    rerank none "q"
      [⟨"a.md", "A", 0⟩, ⟨"b.md", "B", 0⟩, ⟨"c.md", "C", 0⟩, ⟨"d.md", "D", 0⟩] 3 ≠
      [⟨"a.md", "A", 0⟩, ⟨"b.md", "B", 0⟩, ⟨"c.md", "C", 0⟩, ⟨"d.md", "D", 0⟩] := by
  intro h
  have h1 := congrArg List.length h
  norm_num [rerank] at h1

/-- C8 (amended): when the cross-encoder is unavailable, `rerank` returns
the FIRST `top_k` candidates in their original input order, without
signalling an error; the whole list comes back only when it has at most
`top_k` elements. -/
theorem rerank_unavailable (query : String) (candidates : List MCPDocument)
    (top_k : Nat) :
    rerank none query candidates top_k = candidates.take top_k ∧
    List.Sublist (rerank none query candidates top_k) candidates ∧
    (candidates.length ≤ top_k → rerank none query candidates top_k = candidates) := by
  refine ⟨rfl, ?_, ?_⟩
  · exact List.take_sublist _ _
  · intro h
    simp [rerank, List.take_of_length_le h]

/-- Witness for the amended C8: two candidates, budget five — the fallback
returns them untouched. -/
theorem rerank_unavailable_witness :
    rerank none "q" [⟨"a.md", "A", 0⟩, ⟨"b.md", "B", 0⟩] 5 =
      [⟨"a.md", "A", 0⟩, ⟨"b.md", "B", 0⟩] :=
  (rerank_unavailable "q" [⟨"a.md", "A", 0⟩, ⟨"b.md", "B", 0⟩] 5).2.2 (by decide)

/-- C6: `retrieve` dispatches each of the five known strategy names to the
corresponding retrieval function and succeeds on the name; any other name
yields the caller-visible error `"Unknown strategy: <name>"` without
performing any retrieval. -/
theorem retrieve_dispatch (v : Vault) (vecRank : List MCPDocument)
    (store : VectorStore) (bm25Scores : List ℚ)
    (searchVault : String → List MCPDocument)
    (ce : Option (String → String → ℚ)) (cfg : RAGConfig) (query : String)
    (strategy : String) :
    (strategy ∉ ["vector", "keyword", "hybrid", "graph", "full"] →
      retrieve v vecRank store bm25Scores searchVault ce cfg query strategy =
        .error ("Unknown strategy: " ++ strategy)) ∧
    retrieve v vecRank store bm25Scores searchVault ce cfg query "vector" =
      .ok (vector_retrieval vecRank cfg) ∧
    retrieve v vecRank store bm25Scores searchVault ce cfg query "keyword" =
      .ok (keyword_retrieval searchVault cfg query) ∧
    retrieve v vecRank store bm25Scores searchVault ce cfg query "hybrid" =
      .ok (hybrid_retrieval vecRank store bm25Scores ce cfg query) ∧
    retrieve v vecRank store bm25Scores searchVault ce cfg query "graph" =
      .ok (graph_retrieval v vecRank store bm25Scores ce cfg query) ∧
    retrieve v vecRank store bm25Scores searchVault ce cfg query "full" =
      .ok (full_retrieval v vecRank store bm25Scores ce cfg query) := by
  refine ⟨?_, rfl, rfl, rfl, rfl, rfl⟩
  intro hmem
  simp only [List.mem_cons, List.not_mem_nil, or_false, not_or] at hmem
  obtain ⟨h1, h2, h3, h4, h5⟩ := hmem
  unfold retrieve
  rw [if_neg h1, if_neg h2, if_neg h3, if_neg h4, if_neg h5]

/-- Witness for C6: the unknown name `"oops"` is rejected with the exact
error message. -/
theorem retrieve_dispatch_witness :
    retrieve [] [] ⟨[], []⟩ [] (fun q => []) none {} "q" "oops" =
      .error ("Unknown strategy: " ++ "oops") :=
  (retrieve_dispatch [] [] ⟨[], []⟩ [] (fun q => []) none {} "q" "oops").1
    (by decide)

theorem rerank_length_le (ce : Option (String → String → ℚ)) (query : String)
    (candidates : List MCPDocument) (n : Nat) :
    (rerank ce query candidates n).length ≤ n := by
  unfold rerank
  cases ce with
  | none => exact List.length_take_le _ _
  | some f =>
    simp only [List.length_map, List.length_take]
    omega

theorem hybrid_search_length_le (vecRank : List MCPDocument)
    (store : VectorStore) (bm25Scores : List ℚ) (k : Nat) (w : ℚ) :
    (hybrid_search vecRank store bm25Scores k w).length ≤ k :=
  List.length_take_le _ _

theorem hybrid_retrieval_length_le (vecRank : List MCPDocument)
    (store : VectorStore) (bm25Scores : List ℚ)
    (ce : Option (String → String → ℚ)) (cfg : RAGConfig) (query : String) :
    (hybrid_retrieval vecRank store bm25Scores ce cfg query).length ≤
      cfg.top_k := by
  have hs := hybrid_search_length_le vecRank store bm25Scores cfg.top_k
    cfg.vector_weight
  simp only [hybrid_retrieval]
  split
  case isTrue h =>
    simp only [Bool.and_eq_true, decide_eq_true_eq] at h
    calc (rerank ce query _ (min 3 _)).length
        ≤ min 3 (hybrid_search vecRank store bm25Scores cfg.top_k
            cfg.vector_weight).length := rerank_length_le _ _ _ _
      _ ≤ cfg.top_k := by omega
  case isFalse h => exact hs

theorem graph_retrieval_length_le (v : Vault) (vecRank : List MCPDocument)
    (store : VectorStore) (bm25Scores : List ℚ)
    (ce : Option (String → String → ℚ)) (cfg : RAGConfig) (query : String) :
    (graph_retrieval v vecRank store bm25Scores ce cfg query).length ≤
      cfg.top_k := by
  simp only [graph_retrieval]
  split
  · exact Nat.zero_le _
  · exact List.length_take_le _ _

theorem full_retrieval_length_le (v : Vault) (vecRank : List MCPDocument)
    (store : VectorStore) (bm25Scores : List ℚ)
    (ce : Option (String → String → ℚ)) (cfg : RAGConfig) (query : String) :
    (full_retrieval v vecRank store bm25Scores ce cfg query).length ≤
      cfg.top_k :=
  List.length_take_le _ _

/-- C10: whenever `retrieve` succeeds — under any of the five strategies —
the returned list holds at most `config.top_k` documents: every branch
either truncates to `top_k` directly or (hybrid with reranking) returns at
most `min 3 len ≤ top_k` documents. -/
theorem retrieve_length_le (v : Vault) (vecRank : List MCPDocument)
    (store : VectorStore) (bm25Scores : List ℚ)
    (searchVault : String → List MCPDocument)
    (ce : Option (String → String → ℚ)) (cfg : RAGConfig) (query : String)
    (strategy : String) (result : List MCPDocument)
    (h : retrieve v vecRank store bm25Scores searchVault ce cfg query
      strategy = .ok result) :
    result.length ≤ cfg.top_k := by
  unfold retrieve at h
  split_ifs at h with h1 h2 h3 h4 h5
  · cases h; exact List.length_take_le _ _
  · cases h; exact List.length_take_le _ _
  · cases h; exact hybrid_retrieval_length_le _ _ _ _ _ _
  · cases h; exact graph_retrieval_length_le _ _ _ _ _ _ _
  · cases h; exact full_retrieval_length_le _ _ _ _ _ _ _

/-- Witness for C10 at a concrete successful call of the vector strategy. -/
theorem retrieve_length_le_witness :
    ([] : List MCPDocument).length ≤ ({} : RAGConfig).top_k :=
  retrieve_length_le [] [] ⟨[], []⟩ [] (fun q => []) none {} "q" "vector" []
    rfl

theorem rerank_length_eq (ce : Option (String → String → ℚ)) (query : String)
    (candidates : List MCPDocument) (n : Nat) (h : n ≤ candidates.length) :
    (rerank ce query candidates n).length = n := by
  unfold rerank
  cases ce with
  | none =>
    simp only [List.length_take]
    omega
  | some f =>
    simp only [List.length_map, List.length_take, sortOnDesc_length]
    omega

/-- C3 counterexample: with six candidates, `top_k = 5` and a reranker
configured, `_hybrid_retrieval` returns only `min(3, len) = 3` reranked
documents — not the fused list truncated to `top_k = 5` that the claim
predicts. -/
theorem hybrid_rerank_truncation_counterexample :
    hybrid_retrieval vr3 ⟨[], []⟩ [] (some (fun q c => 0)) cfg3 "q" ≠
      hybrid_search vr3 ⟨[], []⟩ [] cfg3.top_k cfg3.vector_weight := by
  intro h
  have h1 : (hybrid_retrieval vr3 ⟨[], []⟩ [] (some (fun q c => 0))
      cfg3 "q").length = 3 := by
    norm_num [hybrid_retrieval, hybrid_search, rerank, semantic_search,
      argsortDesc, sortOnDesc, listMax, List.insertionSort,
      List.orderedInsert, dictSet, bmUpsert, keyGE, vr3, cfg3]
  have h2 : (hybrid_search vr3 ⟨[], []⟩ [] cfg3.top_k
      cfg3.vector_weight).length = 5 := by
    norm_num [hybrid_search, semantic_search, argsortDesc, sortOnDesc,
      listMax, List.insertionSort, List.orderedInsert, dictSet, bmUpsert,
      keyGE, vr3, cfg3]
  rw [h] at h1
  omega

/-- C3 (amended): when a reranker is configured and the fused list (already
truncated to `top_k`) has more than 3 candidates, the final result is the
reranker applied to that truncated list with budget `min(3, len) = 3` — so
exactly 3 documents come back, not `top_k`. -/
theorem hybrid_retrieval_rerank (vecRank : List MCPDocument)
    (store : VectorStore) (bm25Scores : List ℚ)
    (ce : Option (String → String → ℚ)) (cfg : RAGConfig) (query : String)
    (h1 : cfg.rerank = true)
    (h2 : 3 < (hybrid_search vecRank store bm25Scores cfg.top_k
      cfg.vector_weight).length) :
    hybrid_retrieval vecRank store bm25Scores ce cfg query =
      rerank ce query
        (hybrid_search vecRank store bm25Scores cfg.top_k cfg.vector_weight)
        3 ∧
    (hybrid_retrieval vecRank store bm25Scores ce cfg query).length = 3 := by
  have hmin : min 3 (hybrid_search vecRank store bm25Scores cfg.top_k
      cfg.vector_weight).length = 3 := by omega
  have hmain : hybrid_retrieval vecRank store bm25Scores ce cfg query =
      rerank ce query
        (hybrid_search vecRank store bm25Scores cfg.top_k cfg.vector_weight)
        3 := by
    simp only [hybrid_retrieval, h1, Bool.true_and, decide_eq_true_eq]
    rw [if_pos h2, hmin]
  refine ⟨hmain, ?_⟩
  rw [hmain]
  exact rerank_length_eq ce query _ 3 (by omega)

/-- Witness for the amended C3 on the six-document corpus. -/
theorem hybrid_retrieval_rerank_witness :
    hybrid_retrieval vr3 ⟨[], []⟩ [] (some (fun q c => 1)) cfg3 "q" =
      rerank (some (fun q c => 1)) "q"
        (hybrid_search vr3 ⟨[], []⟩ [] cfg3.top_k cfg3.vector_weight) 3 ∧
    (hybrid_retrieval vr3 ⟨[], []⟩ [] (some (fun q c => 1))
      cfg3 "q").length = 3 := by
  refine hybrid_retrieval_rerank vr3 ⟨[], []⟩ [] (some (fun q c => 1)) cfg3
    "q" rfl ?_
  norm_num [hybrid_search, semantic_search, argsortDesc, sortOnDesc,
    listMax, List.insertionSort, List.orderedInsert, dictSet, bmUpsert,
    keyGE, vr3, cfg3]

theorem dedupByPathFrom_not_mem_seen (l : List MCPDocument) :
    ∀ (seen : List String) (x : MCPDocument),
      x ∈ dedupByPathFrom seen l → x.path ∉ seen := by
  induction l with
  | nil =>
    intro seen x hx
    simp [dedupByPathFrom] at hx
  | cons d ds ih =>
    intro seen x hx
    unfold dedupByPathFrom at hx
    split at hx
    · exact ih seen x hx
    · rename_i hd
      rcases List.mem_cons.mp hx with h | h
      · subst h; exact hd
      · intro hmem
        exact ih (d.path :: seen) x h (List.mem_cons_of_mem _ hmem)

theorem dedupByPathFrom_nodup (l : List MCPDocument) :
    ∀ seen : List String,
      ((dedupByPathFrom seen l).map (fun d => d.path)).Nodup := by
  induction l with
  | nil => intro seen; simp [dedupByPathFrom]
  | cons d ds ih =>
    intro seen
    unfold dedupByPathFrom
    split
    · exact ih seen
    · rw [List.map_cons, List.nodup_cons]
      refine ⟨?_, ih (d.path :: seen)⟩
      intro hmem
      obtain ⟨y, hy, hyp⟩ := List.mem_map.mp hmem
      exact dedupByPathFrom_not_mem_seen ds (d.path :: seen) y hy
        (by simp [hyp])

/-- A document surviving the `seen_paths` deduplication is exactly the
first occurrence of its path in the input list. -/
theorem dedupByPathFrom_find (l : List MCPDocument) :
    ∀ (seen : List String) (x : MCPDocument), x ∈ dedupByPathFrom seen l →
      l.find? (fun y => y.path == x.path) = some x := by
  induction l with
  | nil =>
    intro seen x hx
    simp [dedupByPathFrom] at hx
  | cons d ds ih =>
    intro seen x hx
    unfold dedupByPathFrom at hx
    split at hx
    · rename_i hd
      have hne : d.path ≠ x.path := by
        intro he
        exact dedupByPathFrom_not_mem_seen ds seen x hx (he ▸ hd)
      rw [List.find?_cons_of_neg _ (by simp [hne])]
      exact ih seen x hx
    · rcases List.mem_cons.mp hx with h | h
      · subst h
        rw [List.find?_cons_of_pos _ (by simp)]
      · have hne : d.path ≠ x.path := by
          intro he
          exact dedupByPathFrom_not_mem_seen ds (d.path :: seen) x h
            (by simp [he])
        rw [List.find?_cons_of_neg _ (by simp [hne])]
        exact ih (d.path :: seen) x h

/-- C5 counterexample: the code never unions the original seed candidates
back — on a four-note linkless vault with `top_k = 5`, the fourth hybrid
seed `d.md` is dropped (only the top 3 seeds survive as the roots of their
own expansions), so the code returns 3 documents where the claimed union
returns 4. -/
theorem graph_union_counterexample :
    graph_retrieval vault5 vr5 ⟨[], []⟩ [] none cfg5 "q" ≠
      graph_retrieval_claimed vault5 vr5 ⟨[], []⟩ [] none cfg5 "q" := by
  intro h
  have h1 : (graph_retrieval vault5 vr5 ⟨[], []⟩ [] none cfg5 "q").length
      = 3 := by
    norm_num [graph_retrieval, hybrid_retrieval, hybrid_search,
      semantic_search, expand_context, discovery_list, bfs_result,
      bfs_levels, visitFrontier, get_note, get_linked_notes, get_backlinks,
      vault_paths, dedupByPathFrom, sortOnDesc, argsortDesc, listMax,
      List.insertionSort, List.orderedInsert, dictSet, bmUpsert, keyGE,
      rerank, List.find?, List.filter, List.filterMap, vault5, vr5, cfg5]
  have h2 : (graph_retrieval_claimed vault5 vr5 ⟨[], []⟩ [] none cfg5
      "q").length = 4 := by
    norm_num [graph_retrieval_claimed, hybrid_retrieval, hybrid_search,
      semantic_search, expand_context, discovery_list, bfs_result,
      bfs_levels, visitFrontier, get_note, get_linked_notes, get_backlinks,
      vault_paths, dedupByPathFrom, sortOnDesc, argsortDesc, listMax,
      List.insertionSort, List.orderedInsert, dictSet, bmUpsert, keyGE,
      rerank, List.find?, List.filter, List.filterMap, vault5, vr5, cfg5]
  rw [h] at h1
  omega

/-- C5 (amended): the graph strategy does not union the seed candidates
back.  When the hybrid seeds are empty the result is empty; otherwise the
result is sorted by score descending, holds at most `top_k` documents with
pairwise-distinct paths, and every returned document is exactly the first
occurrence of its path in the concatenated expansions of the top-3 seeds
(seed documents survive only as roots of their own expansions). -/
theorem graph_retrieval_spec (v : Vault) (vecRank : List MCPDocument)
    (store : VectorStore) (bm25Scores : List ℚ)
    (ce : Option (String → String → ℚ)) (cfg : RAGConfig) (query : String) :
    ((hybrid_retrieval vecRank store bm25Scores ce cfg query).isEmpty =
        true →
      graph_retrieval v vecRank store bm25Scores ce cfg query = []) ∧
    (graph_retrieval v vecRank store bm25Scores ce cfg query).length ≤
      cfg.top_k ∧
    (graph_retrieval v vecRank store bm25Scores ce cfg query).Sorted
      (keyGE (fun d => d.score)) ∧
    ((graph_retrieval v vecRank store bm25Scores ce cfg query).map
      (fun d => d.path)).Nodup ∧
    ∀ x ∈ graph_retrieval v vecRank store bm25Scores ce cfg query,
      (((hybrid_retrieval vecRank store bm25Scores ce cfg query).take 3).bind
        (fun d => expand_context v d.path cfg.graph_depth)).find?
        (fun y => y.path == x.path) = some x := by
  by_cases hemp :
    (hybrid_retrieval vecRank store bm25Scores ce cfg query).isEmpty = true
  · have hG : graph_retrieval v vecRank store bm25Scores ce cfg query = [] := by
      unfold graph_retrieval
      rw [if_pos hemp]
    rw [hG]
    exact ⟨fun _ => rfl, Nat.zero_le _, by simp, by simp, by simp⟩
  · have hG : graph_retrieval v vecRank store bm25Scores ce cfg query =
        (sortOnDesc (fun d => d.score) (dedupByPathFrom []
          (((hybrid_retrieval vecRank store bm25Scores ce cfg
            query).take 3).bind
            (fun d => expand_context v d.path cfg.graph_depth)))).take
          cfg.top_k := by
      unfold graph_retrieval
      rw [if_neg hemp]
    rw [hG]
    refine ⟨fun h => absurd h hemp, List.length_take_le _ _, ?_, ?_, ?_⟩
    · exact (sortOnDesc_sorted _ _).sublist (List.take_sublist _ _)
    · have hperm := (sortOnDesc_perm (fun d => d.score)
        (dedupByPathFrom []
          (((hybrid_retrieval vecRank store bm25Scores ce cfg
            query).take 3).bind
            (fun d => expand_context v d.path cfg.graph_depth)))).map
        (fun d => d.path)
      have hnd := hperm.nodup_iff.mpr (dedupByPathFrom_nodup _ [])
      rw [List.map_take]
      exact hnd.sublist (List.take_sublist _ _)
    · intro x hx
      have hx1 : x ∈ sortOnDesc (fun d => d.score) (dedupByPathFrom []
          (((hybrid_retrieval vecRank store bm25Scores ce cfg
            query).take 3).bind
            (fun d => expand_context v d.path cfg.graph_depth))) :=
        (List.take_sublist _ _).subset hx
      have hx2 := (sortOnDesc_perm _ _).mem_iff.mp hx1
      exact dedupByPathFrom_find _ [] x hx2

/-- Witness for the amended C5: empty seeds give an empty graph result. -/
theorem graph_retrieval_spec_witness :
    graph_retrieval [] [] ⟨[], []⟩ [] none {} "q" = [] :=
  (graph_retrieval_spec [] [] ⟨[], []⟩ [] none {} "q").1 rfl

theorem mock_update_idem (query : String) (d : MCPDocument) :
    mock_update query (mock_update query d) = mock_update query d := by
  unfold mock_update
  by_cases h : mock_matches query d = true
  · rw [if_pos h]
    have h2 : mock_matches query
        (⟨d.path, d.content, mock_score query d⟩ : MCPDocument) = true := h
    rw [if_pos h2]
    rfl
  · simp only [Bool.not_eq_true] at h
    simp [h]

/-- C9 counterexample: `MockVectorRAG.add_documents` is
`self._documents.extend(documents)` — re-adding the same single-document
batch leaves two store entries with the path `a.md`. -/
theorem mock_add_documents_counterexample :
    ¬ (((mock_add_documents (mock_add_documents [] [⟨"a.md", "A", 0⟩])
        [⟨"a.md", "A", 0⟩]).map (fun d => d.path)).Nodup) := by
  decide

/-- C9 (amended): the duplicate-free re-add property holds for the real
`VectorRAG` BM25 store (a non-empty batch wholesale-replaces the index, so
re-adding is idempotent and a path-distinct batch leaves distinct ids),
and an identical second query against the mock store is deterministic (the
in-place score mutation is idempotent, so results, order and scores all
repeat) — but not for `MockVectorRAG.add_documents`, which appends. -/
theorem add_documents_idempotent (store : VectorStore)
    (docs : List MCPDocument) (s₀ : List MCPDocument) (query : String)
    (k : Nat) (hnd : (docs.map (fun d => d.path)).Nodup) :
    add_documents (add_documents store docs) docs = add_documents store docs ∧
    (docs.isEmpty = false → (add_documents store docs).ids.Nodup) ∧
    (mock_semantic_search (mock_semantic_search s₀ query k).2 query k).1 =
      (mock_semantic_search s₀ query k).1 := by
  refine ⟨?_, ?_, ?_⟩
  · unfold add_documents
    by_cases h : docs.isEmpty <;> simp [h]
  · intro h
    simp only [add_documents, h, Bool.false_eq_true, if_false]
    exact hnd
  · unfold mock_semantic_search
    simp only
    rw [List.map_map]
    have hmm : s₀.map (mock_update query ∘ mock_update query) =
        s₀.map (mock_update query) :=
      List.map_congr_left (fun d _ => mock_update_idem query d)
    rw [hmm]

/-- Witness for the amended C9 on a one-document batch and store. -/
theorem add_documents_idempotent_witness :
    add_documents (add_documents ⟨[], []⟩ [⟨"a.md", "A", 0⟩])
        [⟨"a.md", "A", 0⟩] =
      add_documents ⟨[], []⟩ [⟨"a.md", "A", 0⟩] ∧
    (add_documents ⟨[], []⟩ [⟨"a.md", "A", 0⟩]).ids.Nodup := by
  have h := add_documents_idempotent ⟨[], []⟩ [⟨"a.md", "A", 0⟩] [] "q" 5
    (by decide)
  exact ⟨h.1, h.2.1 (by decide)⟩


end ObsidianRAG
